import Mathlib

/-!
Verification development for the brrrand asset-extraction pipeline.

The TypeScript source is shallowly embedded over `List Char`:
JavaScript strings become `List Char`, the regular-expression based
global replacements of the sanitizers become explicit left-to-right
scanners, JavaScript numbers (which may be NaN) become `Option Int`,
and the key-value store backing the rate limiter becomes an
association list threaded through the functions.
-/

namespace Brrrand

/-! ## Character classes (ASCII fragment of the JS semantics) -/

/-- ASCII lowercasing, modelling String.prototype.toLowerCase on ASCII text. -/
def lowerC (c : Char) : Char :=
  if 'A' ≤ c ∧ c ≤ 'Z' then Char.ofNat (c.toNat + 32) else c

/-- Word character, modelling the regex class \w : [A-Za-z0-9_]. -/
def isWordC (c : Char) : Bool :=
  ('a' ≤ c && c ≤ 'z') || ('A' ≤ c && c ≤ 'Z') || ('0' ≤ c && c ≤ '9') || c = '_'

/-- Decimal digit, modelling the regex class \d. -/
def isDigitC (c : Char) : Bool := '0' ≤ c && c ≤ '9'

/-- Whitespace, modelling the regex class \s on ASCII text
(space, tab, newline, carriage return, form feed, vertical tab). -/
def isWsC (c : Char) : Bool :=
  c = ' ' || c = Char.ofNat 9 || c = Char.ofNat 10 || c = Char.ofNat 13 ||
  c = Char.ofNat 12 || c = Char.ofNat 11

/-- A quote character, modelling the regex class ["'] used by the sanitizers. -/
def isQuoteC (c : Char) : Bool := c = Char.ofNat 34 || c = Char.ofNat 39

/-- Case-insensitively consume the literal `pat` (given in lowercase) from the
front of `s`, returning the remainder. Models a case-insensitive literal part
of a regex with the i flag. -/
def dropLit : List Char → List Char → Option (List Char)
  | [], s => some s
  | _ :: _, [] => none
  | p :: ps, c :: cs => if lowerC c = p then dropLit ps cs else none

/-- First character is a word character (used for regex \b checks after a
literal that ends in a word character). -/
def headIsWord : List Char → Bool
  | [] => false
  | c :: _ => isWordC c

/-! ## Global replace-with-empty scanner

`String.prototype.replace(re, '')` with the g flag performs a single
left-to-right pass: at each position it deletes the leftmost match and
resumes scanning after the deleted span; the produced text is not
re-scanned. `tm s` gives the length of a match anchored at the head of
`s` (`none` when the regex does not match there). Fuel makes the
recursion structural; `gsub` supplies sufficient fuel. -/

def scanF (tm : List Char → Option Nat) : Nat → List Char → List Char
  | 0, s => s
  | _ + 1, [] => []
  | fuel + 1, c :: cs =>
    match tm (c :: cs) with
    | some (n + 1) => scanF tm fuel (List.drop n cs)
    | _ => c :: scanF tm fuel cs

/-- One global-replace pass deleting every leftmost match of `tm`. -/
def gsub (tm : List Char → Option Nat) (s : List Char) : List Char :=
  scanF tm s.length s

/-! ## The individual sanitizer regexes

Each `tm...` function decides, deterministically, how many characters the
corresponding JavaScript regex matches when anchored at the head of the
input. The regexes of `sanitizeContent` / `minimalSanitizeForExtraction`
contain no backtracking that can change the outcome (every starred class
excludes the character that must follow it), so greedy scanning is exact. -/

/-- Length of the run of characters satisfying `p` at the head of `s`. -/
def runLen (p : Char → Bool) (s : List Char) : Nat := (s.takeWhile p).length

def openScriptL : List Char := ['<', 's', 'c', 'r', 'i', 'p', 't']

def closeScriptL : List Char := ['<', '/', 's', 'c', 'r', 'i', 'p', 't', '>']

/-- Tail loop of the script-block regex
<script\b[^<]*(?:(?!<\/script>)<[^<]*)*<\/script> : consumed length of
(?:(?!<\/script>)<[^<]*)* followed by the literal </script>. -/
def scriptTail : Nat → List Char → Option Nat
  | fuel, s =>
    if (dropLit closeScriptL s).isSome then some 9
    else
      match fuel, s with
      | f + 1, '<' :: cs =>
        let run := runLen (fun c => !(c = '<')) cs
        match scriptTail f (cs.drop run) with
        | some t => some (1 + run + t)
        | none => none
      | _, _ => none

/-- Matcher for /<script\b[^<]*(?:(?!<\/script>)<[^<]*)*<\/script>/gi . -/
def tmScript (s : List Char) : Option Nat :=
  match dropLit openScriptL s with
  | some rest =>
    if headIsWord rest then none
    else
      let run := runLen (fun c => !(c = '<')) rest
      let rest2 := rest.drop run
      match scriptTail rest2.length rest2 with
      | some t => some (7 + run + t)
      | none => none
  | none => none

/-- Ordered alternation for an opening-tag regex <(?:a1|a2|...)\b[^>]*> ,
already past the initial < . -/
def tagOpenGo : List (List Char) → List Char → Option Nat
  | [], _ => none
  | a :: as, rest =>
    match dropLit a rest with
    | some rest2 =>
      if headIsWord rest2 then tagOpenGo as rest
      else
        let run := runLen (fun c => !(c = '>')) rest2
        match rest2.drop run with
        | '>' :: _ => some (1 + a.length + run + 1)
        | _ => tagOpenGo as rest
    | none => tagOpenGo as rest

/-- Matcher for /<(?:a1|a2|...)\b[^>]*>/gi . -/
def tmTagOpen (alts : List (List Char)) : List Char → Option Nat
  | '<' :: rest => tagOpenGo alts rest
  | _ => none

def tagCloseGo : List (List Char) → List Char → Option Nat
  | [], _ => none
  | a :: as, rest =>
    match dropLit a rest with
    | some ('>' :: _) => some (2 + a.length + 1)
    | _ => tagCloseGo as rest

/-- Matcher for /<\/(?:a1|a2|...)>/gi . -/
def tmTagClose (alts : List (List Char)) : List Char → Option Nat
  | '<' :: '/' :: rest => tagCloseGo alts rest
  | _ => none

/-- Matcher for the attribute-value tail \s*=\s*["'][^"']*["'] . -/
def attrValTail (r : List Char) : Option Nat :=
  let a := runLen isWsC r
  match r.drop a with
  | '=' :: r2 =>
    let b := runLen isWsC r2
    match r2.drop b with
    | q :: r3 =>
      if isQuoteC q then
        let v := runLen (fun c => !(isQuoteC c)) r3
        match r3.drop v with
        | q2 :: _ => if isQuoteC q2 then some (a + 1 + b + 1 + v + 1) else none
        | [] => none
      else none
    | [] => none
  | _ => none

def onL : List Char := ['o', 'n']

/-- Matcher for /\s+on\w+\s*=\s*["'][^"']*["']/gi (strict mode). -/
def tmOnAny (s : List Char) : Option Nat :=
  let w := runLen isWsC s
  if w = 0 then none
  else
    match dropLit onL (s.drop w) with
    | some r2 =>
      let n := runLen isWordC r2
      if n = 0 then none
      else
        match attrValTail (r2.drop n) with
        | some t => some (w + 2 + n + t)
        | none => none
    | none => none

def eventGo : List (List Char) → List Char → Option Nat
  | [], _ => none
  | e :: es, r2 =>
    match dropLit e r2 with
    | some r3 =>
      match attrValTail r3 with
      | some t => some (e.length + t)
      | none => eventGo es r2
    | none => eventGo es r2

def minEventAlts : List (List Char) :=
  [['l', 'o', 'a', 'd'], ['e', 'r', 'r', 'o', 'r'], ['c', 'l', 'i', 'c', 'k']]

/-- Matcher for /\s+on(?:load|error|click)\s*=\s*["'][^"']*["']/gi
(extraction-preserving mode). -/
def tmOnEvents (s : List Char) : Option Nat :=
  let w := runLen isWsC s
  if w = 0 then none
  else
    match dropLit onL (s.drop w) with
    | some r2 =>
      match eventGo minEventAlts r2 with
      | some t => some (w + 2 + t)
      | none => none
    | none => none

/-- Ordered alternation over the scheme literals (with trailing colon),
then [^"']*["'] , inside the href/src value. -/
def schemeGo : List (List Char) → List Char → Option Nat
  | [], _ => none
  | sch :: rest, r3 =>
    match dropLit sch r3 with
    | some r4 =>
      let v := runLen (fun c => !(isQuoteC c)) r4
      match r4.drop v with
      | q2 :: _ => if isQuoteC q2 then some (sch.length + v + 1) else schemeGo rest r3
      | [] => schemeGo rest r3
    | none => schemeGo rest r3

/-- Value part \s*=\s*["'](?:s1|s2):[^"']*["'] of the href/src regexes
(the colon is folded into each scheme literal). -/
def urlAttrBody (schemes : List (List Char)) (r : List Char) : Option Nat :=
  let a := runLen isWsC r
  match r.drop a with
  | '=' :: r2 =>
    let b := runLen isWsC r2
    match r2.drop b with
    | q :: r3 =>
      if isQuoteC q then
        match schemeGo schemes r3 with
        | some t => some (a + 1 + b + 1 + t)
        | none => none
      else none
    | [] => none
  | _ => none

def attrGo (schemes : List (List Char)) : List (List Char) → List Char → Option Nat
  | [], _ => none
  | a :: as, s =>
    match dropLit a s with
    | some r =>
      match urlAttrBody schemes r with
      | some t => some (a.length + t)
      | none => attrGo schemes as s
    | none => attrGo schemes as s

def hrefSrcAlts : List (List Char) := [['h', 'r', 'e', 'f'], ['s', 'r', 'c']]

/-- Matcher for /(href|src)\s*=\s*["'](?:s1|s2):[^"']*["']/gi . -/
def tmUrlAttr (schemes : List (List Char)) (s : List Char) : Option Nat :=
  attrGo schemes hrefSrcAlts s

def exprL : List Char := ['e', 'x', 'p', 'r', 'e', 's', 's', 'i', 'o', 'n']

/-- Does the (quote-free) segment contain expression\s*\( ? -/
def hasExprParen : List Char → Bool
  | [] => false
  | c :: cs =>
    match dropLit exprL (c :: cs) with
    | some r =>
      let w := runLen isWsC r
      match r.drop w with
      | '(' :: _ => true
      | _ => hasExprParen cs
    | none => hasExprParen cs

def styleL : List Char := ['s', 't', 'y', 'l', 'e']

/-- Matcher for /style\s*=\s*["'][^"']*expression\s*\([^"']*["']/gi .
Backtracking of the starred classes cannot change whether or how much this
regex matches: everything between the opening quote and the next quote is
quote-free, so a match exists exactly when that segment contains
expression\s*\( and a closing quote follows, and the match always extends
through that closing quote. -/
def tmStyleExpr (s : List Char) : Option Nat :=
  match dropLit styleL s with
  | some r =>
    let a := runLen isWsC r
    match r.drop a with
    | '=' :: r2 =>
      let b := runLen isWsC r2
      match r2.drop b with
      | q :: r3 =>
        if isQuoteC q then
          let v := runLen (fun c => !(isQuoteC c)) r3
          match r3.drop v with
          | q2 :: _ =>
            if isQuoteC q2 && hasExprParen (r3.take v) then
              some (5 + a + 1 + b + 1 + v + 1)
            else none
          | [] => none
        else none
      | [] => none
    | _ => none
  | none => none

/-! ## The two sanitizers, from src/functions/_lib/utils.ts -/

def objAlts : List (List Char) :=
  [['o', 'b', 'j', 'e', 'c', 't'], ['e', 'm', 'b', 'e', 'd'],
   ['a', 'p', 'p', 'l', 'e', 't']]

def formAlts : List (List Char) :=
  [['f', 'o', 'r', 'm'], ['i', 'n', 'p', 'u', 't'], ['b', 'u', 't', 't', 'o', 'n'],
   ['t', 'e', 'x', 't', 'a', 'r', 'e', 'a'], ['s', 'e', 'l', 'e', 'c', 't']]

def frameAlts : List (List Char) :=
  [['f', 'r', 'a', 'm', 'e'], ['f', 'r', 'a', 'm', 'e', 's', 'e', 't'],
   ['i', 'f', 'r', 'a', 'm', 'e']]

def strictSchemes : List (List Char) :=
  [['j', 'a', 'v', 'a', 's', 'c', 'r', 'i', 'p', 't', ':'],
   ['d', 'a', 't', 'a', ':']]

def minSchemes : List (List Char) :=
  [['j', 'a', 'v', 'a', 's', 'c', 'r', 'i', 'p', 't', ':']]

/-- sanitizeContent (strict mode), the chain of global replacements from
src/functions/_lib/utils.ts lines 128-172. The regex replacements cannot
throw, so the catch branch is unreachable and is not modelled. -/
def sanitizeContentL (html : List Char) : List Char :=
  if html.isEmpty then []
  else
    gsub tmStyleExpr
      (gsub (tmUrlAttr strictSchemes)
        (gsub tmOnAny
          (gsub (tmTagClose frameAlts)
            (gsub (tmTagOpen frameAlts)
              (gsub (tmTagClose formAlts)
                (gsub (tmTagOpen formAlts)
                  (gsub (tmTagClose objAlts)
                    (gsub (tmTagOpen objAlts)
                      (gsub tmScript html)))))))))

/-- minimalSanitizeForExtraction (extraction-preserving mode), from
src/functions/_lib/utils.ts lines 212-234. -/
def minimalSanitizeL (html : List Char) : List Char :=
  if html.isEmpty then []
  else gsub (tmUrlAttr minSchemes) (gsub tmOnEvents (gsub tmScript html))

/-- String-level wrapper of the strict sanitizer. -/
def sanitizeContent (html : String) : String :=
  String.mk (sanitizeContentL html.data)

/-- String-level wrapper of the extraction-preserving sanitizer. -/
def minimalSanitizeForExtraction (html : String) : String :=
  String.mk (minimalSanitizeL html.data)

/-! ## Color normalization, from src/src/utils/secureHtmlParser.ts lines 640-665 -/

/-- JS String.prototype.trim (ASCII whitespace fragment). -/
def trimL (s : List Char) : List Char :=
  ((s.dropWhile isWsC).reverse.dropWhile isWsC).reverse

/-- JS String.prototype.startsWith : plain case-sensitive prefix test. -/
def startsWithL (pat s : List Char) : Bool := s.take pat.length = pat

/-- parseInt on a nonempty all-digit string. -/
def digitsVal (ds : List Char) : Nat :=
  ds.foldl (fun a c => a * 10 + (c.toNat - 48)) 0

/-- The hexadecimal digit characters produced by Number.prototype.toString(16). -/
def hexDigitC (n : Nat) : Char :=
  if n < 10 then Char.ofNat (48 + n) else Char.ofNat (87 + n)

def toHexGo : Nat → Nat → List Char
  | 0, n => [hexDigitC (n % 16)]
  | f + 1, n => if n < 16 then [hexDigitC n] else toHexGo f (n / 16) ++ [hexDigitC (n % 16)]

/-- Number.prototype.toString(16) on a natural number (lowercase hex digits). -/
def toHexStr (n : Nat) : List Char := toHexGo n n

/-- String.prototype.padStart(2, '0'). -/
def padStart2 (s : List Char) : List Char :=
  if 2 ≤ s.length then s else List.replicate (2 - s.length) '0' ++ s

def rgbOpenL : List Char := ['r', 'g', 'b', '(']

/-- Match of /rgb\(\s*(\d+)\s*,\s*(\d+)\s*,\s*(\d+)\s*\)/ anchored at the head,
returning the three captured digit groups. The starred classes exclude the
character that must follow them, so greedy scanning without backtracking is
exact. -/
def rgbAt (s : List Char) : Option (List Char × List Char × List Char) :=
  match dropLit rgbOpenL s with
  | none => none
  | some r1 =>
    let d1 := (r1.drop (runLen isWsC r1)).takeWhile isDigitC
    match d1 with
    | [] => none
    | _ :: _ =>
      let r2 := (r1.drop (runLen isWsC r1)).drop d1.length
      match r2.drop (runLen isWsC r2) with
      | ',' :: r3 =>
        let d2 := (r3.drop (runLen isWsC r3)).takeWhile isDigitC
        match d2 with
        | [] => none
        | _ :: _ =>
          let r4 := (r3.drop (runLen isWsC r3)).drop d2.length
          match r4.drop (runLen isWsC r4) with
          | ',' :: r5 =>
            let d3 := (r5.drop (runLen isWsC r5)).takeWhile isDigitC
            match d3 with
            | [] => none
            | _ :: _ =>
              let r6 := (r5.drop (runLen isWsC r5)).drop d3.length
              match r6.drop (runLen isWsC r6) with
              | ')' :: _ => some (d1, d2, d3)
              | _ => none
          | _ => none
      | _ => none

/-- First match of the rgb pattern anywhere in the string
(String.prototype.match without the g flag). -/
def findRgb : Nat → List Char → Option (List Char × List Char × List Char)
  | 0, s => rgbAt s
  | f + 1, s =>
    match rgbAt s with
    | some g => some g
    | none =>
      match s with
      | [] => none
      | _ :: cs => findRgb f cs

/-- normalizeColor from src/src/utils/secureHtmlParser.ts (identical to the
copy in src/src/utils/assetExtraction.ts): trim and lowercase; expand 3-digit
hex by digit doubling; convert an rgb() triple to zero-padded hex; pass
everything else through unchanged. -/
def normalizeColorL (color : List Char) : List Char :=
  let trimmed := (trimL color).map lowerC
  if startsWithL ['#'] trimmed then
    if trimmed.length = 4 then
      match trimmed with
      | _ :: a :: b :: c :: _ => ['#', a, a, b, b, c, c]
      | _ => trimmed
    else trimmed
  else if startsWithL rgbOpenL trimmed then
    match findRgb trimmed.length trimmed with
    | some (d1, d2, d3) =>
      '#' :: (padStart2 (toHexStr (digitsVal d1)) ++ padStart2 (toHexStr (digitsVal d2)) ++
        padStart2 (toHexStr (digitsVal d3)))
    | none => trimmed
  else trimmed

/-- String-level wrapper of normalizeColor. -/
def normalizeColor (color : String) : String := String.mk (normalizeColorL color.data)

/-- Lowercase hex digit (the alphabet of the canonical color form). -/
def isLowerHexC (c : Char) : Bool := isDigitC c || ('a' ≤ c && c ≤ 'f')

/-- The canonical 6-digit lowercase hex color pattern #[0-9a-f]{6}. -/
def matchesHex6 (s : List Char) : Bool :=
  match s with
  | '#' :: ds => ds.length = 6 && ds.all isLowerHexC
  | _ => false

/-- The character class [0-9a-f] taken case-insensitively, as an explicit
alphabet: the characters a hex color token recognized by the extraction
patterns can contain after the hash sign. -/
def hexAlphabet : List Char :=
  ['a', 'b', 'c', 'd', 'e', 'f', 'A', 'B', 'C', 'D', 'E', 'F',
   '0', '1', '2', '3', '4', '5', '6', '7', '8', '9']

/-- The character class \d as an explicit alphabet. -/
def digitAlphabet : List Char :=
  ['0', '1', '2', '3', '4', '5', '6', '7', '8', '9']

/-- A general rgb token of the shape recognized by the color patterns:
rgb( \s* digits \s* , \s* digits \s* , \s* digits \s* ) . -/
def rgbToken (w1 w2 w3 w4 w5 w6 d1 d2 d3 : List Char) : List Char :=
  rgbOpenL ++ (w1 ++ (d1 ++ (w2 ++ (',' :: (w3 ++ (d2 ++ (w4 ++
    (',' :: (w5 ++ (d3 ++ (w6 ++ [')'])))))))))))

def rgbaOpenL : List Char := ['r', 'g', 'b', 'a', '(']

def hslOpenL : List Char := ['h', 's', 'l', '(']

/-! ## Brand assets and the URL model

`BrandAsset` embeds the TypeScript interface from
src/src/utils/assetExtraction.ts (the `type` field is called `kind` here
because `type` is reserved). `UrlParts` and the parsing functions below model
the WHATWG URL platform API (`new URL`) on the http/https subset this
codebase feeds it: scheme://host/path?query URLs, scheme-relative,
path-absolute and path-relative references. Serialization of a successfully
parsed URL always begins with its scheme followed by :// . Userinfo, ports,
IPv6 hosts and dot-segment normalization are outside the model; inputs using
them fail to parse rather than parse wrongly. -/

structure BrandAsset where
  kind : List Char
  url : Option (List Char) := none
  value : Option (List Char) := none
  name : Option (List Char) := none
  alt : Option (List Char) := none
  source : Option (List Char) := none
deriving DecidableEq, Repr

structure UrlParts where
  scheme : List Char
  host : List Char
  pathq : List Char
deriving DecidableEq, Repr

def isSchemeC (c : Char) : Bool :=
  ('a' ≤ c && c ≤ 'z') || ('A' ≤ c && c ≤ 'Z') || ('0' ≤ c && c ≤ '9') ||
  c = '+' || c = '-' || c = '.'

def isAlphaC (c : Char) : Bool := ('a' ≤ c && c ≤ 'z') || ('A' ≤ c && c ≤ 'Z')

def isHostC (c : Char) : Bool :=
  ('a' ≤ c && c ≤ 'z') || ('A' ≤ c && c ≤ 'Z') || ('0' ≤ c && c ≤ '9') ||
  c = '.' || c = '-'

/-- A syntactically plausible scheme prefix "sch:" at the head of the string. -/
def hasScheme (s : List Char) : Bool :=
  let sch := s.takeWhile (fun c => !(c = ':'))
  !sch.isEmpty && decide (sch.length < s.length) && sch.all isSchemeC &&
    headIsAlpha sch
where headIsAlpha : List Char → Bool
  | [] => false
  | c :: _ => isAlphaC c

/-- Parse an authority-form remainder host/path living after `scheme://` . -/
def parseAuthority (scheme rest2 : List Char) : Option UrlParts :=
  let host := rest2.takeWhile (fun c => !(c = '/' || c = '?' || c = '#'))
  if host.isEmpty || !host.all isHostC then none
  else
    let tail := rest2.drop host.length
    some { scheme := scheme.map lowerC, host := host.map lowerC,
           pathq := match tail with
                    | '/' :: _ => tail
                    | _ => '/' :: tail }

/-- Parse an absolute http(s)-style URL, modelling `new URL(s)` on the
subset of URLs this code handles; `none` models the constructor throwing. -/
def parseAbsUrl (s : List Char) : Option UrlParts :=
  if hasScheme s then
    let sch := s.takeWhile (fun c => !(c = ':'))
    match s.drop (sch.length + 1) with
    | '/' :: '/' :: rest2 => parseAuthority sch rest2
    | _ => none
  else none

/-- The serialization (href) of a parsed URL. -/
def hrefOf (u : UrlParts) : List Char :=
  u.scheme ++ (':' :: '/' :: '/' :: (u.host ++ u.pathq))

/-- The pathname of a parsed URL: the path part before any query/fragment. -/
def pathnameOf (u : UrlParts) : List Char :=
  u.pathq.takeWhile (fun c => !(c = '?' || c = '#'))

/-- Directory part of a path: everything up to and including the last slash. -/
def dirOf (p : List Char) : List Char :=
  (p.reverse.dropWhile (fun c => !(c = '/'))).reverse

/-- Resolution `new URL(input, base)` on the modelled subset: absolute inputs
parse on their own, scheme-relative and path-absolute and path-relative
references resolve against the base; `none` models the constructor throwing.
Dot segments are not collapsed (not needed by any theorem below). -/
def resolveUrlM (input base : List Char) : Option UrlParts :=
  if hasScheme input then parseAbsUrl input
  else
    match parseAbsUrl base with
    | none => none
    | some b =>
      match input with
      | '/' :: '/' :: rest2 => parseAuthority b.scheme rest2
      | '/' :: _ => some { b with pathq := input }
      | _ => some { b with pathq := dirOf (pathnameOf b) ++ input }

/-! ## Logo deduplication, from src/src/utils/secureHtmlParser.ts 1203-1279

`deduplicateLogos` is parameterized by the URL parser `parse` so that the
structural claims hold for any parser; the concrete evaluations instantiate
it with `parseAbsUrl`. JavaScript numbers that may be NaN are `Option Int`
(`none` is NaN); `Map` insertion order becomes an association list where
`set` on an existing key keeps its position, as JS Maps do. -/

def jsMul : Option Int → Option Int → Option Int
  | some a, some b => some (a * b)
  | _, _ => none

def jsSub : Option Int → Option Int → Option Int
  | some a, some b => some (a - b)
  | _, _ => none

/-- JS `a || b` on numbers: NaN and 0 are falsy. -/
def jsOrNum : Option Int → Option Int → Option Int
  | none, b => b
  | some v, b => if v = 0 then b else some v

/-- JS strict inequality `a !== b` on numbers: NaN compares unequal to
everything, including itself. -/
def jsNeq : Option Int → Option Int → Bool
  | some a, some b => decide (a ≠ b)
  | _, _ => true

/-- First match of /(\d+)x?(\d+)?/ in the string (no flags: case-sensitive,
first position where a digit starts). Returns the two captured groups. -/
def findSize : Nat → List Char → Option (List Char × Option (List Char))
  | 0, _ => none
  | f + 1, s =>
    match s with
    | [] => none
    | c :: cs =>
      if isDigitC c then
        let g1 := s.takeWhile isDigitC
        match s.drop g1.length with
        | 'x' :: r2 =>
          let g2 := r2.takeWhile isDigitC
          some (g1, if g2.isEmpty then none else some g2)
        | _ => some (g1, none)
      else findSize f cs

def sizeMatchOf (a : BrandAsset) : Option (List Char × Option (List Char)) :=
  match a.url with
  | none => none
  | some u => findSize u.length u

def parseIntG (o : Option (List Char)) : Option Int :=
  o.map (fun ds => (digitsVal ds : Int))

def svgL : List Char := ['s', 'v', 'g']

def dotSvgL : List Char := ['.', 's', 'v', 'g']

def faviconL : List Char := ['f', 'a', 'v', 'i', 'c', 'o', 'n']

def containsAt (pat : List Char) : Nat → List Char → Bool
  | 0, s => startsWithL pat s
  | f + 1, s =>
    startsWithL pat s ||
      (match s with
       | [] => false
       | _ :: cs => containsAt pat f cs)

/-- JS String.prototype.includes (case-sensitive substring test). -/
def containsSub (pat s : List Char) : Bool := containsAt pat s.length s

def urlHasSvg (a : BrandAsset) : Bool :=
  match a.url with
  | none => false
  | some u => containsSub dotSvgL u || containsSub svgL u

def altMeaningful (a : BrandAsset) : Bool :=
  match a.alt with
  | none => false
  | some t => decide (3 < t.length) && !containsSub faviconL (t.map lowerC)

/-- The SVG-format and alt-text tiebreakers of the logo comparator. -/
def svgAltCmp (a b : BrandAsset) : Int :=
  if urlHasSvg a && !urlHasSvg b then -1
  else if !urlHasSvg a && urlHasSvg b then 1
  else if altMeaningful a && !altMeaningful b then -1
  else if !altMeaningful a && altMeaningful b then 1
  else 0

/-- The logo comparator of deduplicateLogos, composed with the ECMAScript
SortCompare step (a NaN comparator result counts as +0). Note the source's
bSize line reads parseInt(bSizeMatch[2]) || parseInt(bSizeMatch[2]) - the
fallback uses group 2 twice where the aSize line falls back to group 1 -
so bSize is NaN whenever b's URL has no WxH-shaped token. -/
def cmpLogos (a b : BrandAsset) : Int :=
  match sizeMatchOf a, sizeMatchOf b with
  | some (a1, a2), some (b1, b2) =>
    let aSize := jsMul (parseIntG (some a1)) (jsOrNum (parseIntG a2) (parseIntG (some a1)))
    let bSize := jsMul (parseIntG (some b1)) (jsOrNum (parseIntG b2) (parseIntG b2))
    if jsNeq aSize bSize then
      match jsSub bSize aSize with
      | some v => v
      | none => 0
    else svgAltCmp a b
  | some _, none => -1
  | none, some _ => 1
  | none, none => svgAltCmp a b

/-- Stable insertion of `x` after every element it does not strictly precede:
with a consistent comparator this reproduces the stable Array.prototype.sort. -/
def insertStable (cmp : BrandAsset → BrandAsset → Int) (x : BrandAsset) :
    List BrandAsset → List BrandAsset
  | [] => [x]
  | h :: t => if cmp x h < 0 then x :: h :: t else h :: insertStable cmp x t

def jsSortStable (cmp : BrandAsset → BrandAsset → Int) (l : List BrandAsset) :
    List BrandAsset :=
  l.foldl (fun acc x => insertStable cmp x acc) []

def defaultAsset : BrandAsset := { kind := [] }

/-- Selection of the representative of one group: a singleton group yields its
element, otherwise the head of the comparator-sorted group. -/
def bestOf (cmp : BrandAsset → BrandAsset → Int) : List BrandAsset → BrandAsset
  | [l] => l
  | g => (jsSortStable cmp g).headD defaultAsset

/-! ### Grouping -/

def sepC (c : Char) : Bool := c = '-' || c = '_' || c = '.'

/-- Matcher for /\d+x?\d*/g (size indicators like 32x32 or 180). -/
def tmSizeToken (s : List Char) : Option Nat :=
  match s with
  | [] => none
  | c :: _ =>
    if isDigitC c then
      let r1 := runLen isDigitC s
      match s.drop r1 with
      | 'x' :: rest => some (r1 + 1 + runLen isDigitC rest)
      | _ => some r1
    else none

def vendorAlts : List (List Char) :=
  [['a', 'n', 'd', 'r', 'o', 'i', 'd'], ['a', 'p', 'p', 'l', 'e'], ['m', 's'],
   ['f', 'a', 'v', 'i', 'c', 'o', 'n'], ['t', 'o', 'u', 'c', 'h'],
   ['i', 'c', 'o', 'n']]

def vendorGo : List (List Char) → List Char → Option Nat
  | [], _ => none
  | a :: as, s =>
    match dropLit a s with
    | some _ => some a.length
    | none => vendorGo as s

/-- Matcher for /android|apple|ms|favicon|touch|icon/gi . -/
def tmVendor (s : List Char) : Option Nat := vendorGo vendorAlts s

/-- The filename normalization of the grouping key: strip separators, strip
size tokens, strip generic vendor tokens, lowercase. -/
def normalizeFilename (fn : List Char) : List Char :=
  (gsub tmVendor (gsub tmSizeToken (fn.filter (fun c => !sepC c)))).map lowerC

/-- pathname.split('/').pop() : the final path segment. -/
def lastSegment (p : List Char) : List Char :=
  (p.reverse.takeWhile (fun c => !(c = '/'))).reverse

def groupKeyOf (u : UrlParts) : List Char :=
  u.host ++ (':' :: normalizeFilename (lastSegment (pathnameOf u)))

def invalidPre : List Char := ['i', 'n', 'v', 'a', 'l', 'i', 'd', ':']

/-- The Map key a logo candidate is bucketed under (none when it has no url). -/
def logoKey (parse : List Char → Option UrlParts) (l : BrandAsset) :
    Option (List Char) :=
  match l.url with
  | none => none
  | some u =>
    match parse u with
    | some parts => some (groupKeyOf parts)
    | none => some (invalidPre ++ u)

/-- The (hostname, normalizedFilename) grouping key of the claim: assigned
only to candidates whose URL parses. -/
def parsedKey (parse : List Char → Option UrlParts) (l : BrandAsset) :
    Option (List Char) :=
  match l.url with
  | none => none
  | some u => (parse u).map groupKeyOf

abbrev Groups := List (List Char × List BrandAsset)

/-- Map.get(k).push(l) after Map.set(k, []) when absent: appends to the
existing bucket, or adds a new key at the end. -/
def pushGroup : Groups → List Char → BrandAsset → Groups
  | [], k, l => [(k, [l])]
  | (k', g) :: rest, k, l =>
    if k' = k then (k', g ++ [l]) :: rest else (k', g) :: pushGroup rest k l

/-- Map.set(k, v): replaces the value of an existing key in place (JS Maps
keep the original insertion position), or adds a new key at the end. -/
def setGroup : Groups → List Char → List BrandAsset → Groups
  | [], k, v => [(k, v)]
  | (k', g) :: rest, k, v =>
    if k' = k then (k', v) :: rest else (k', g) :: setGroup rest k v

/-- Processing of one candidate in the grouping loop of deduplicateLogos. -/
def stepG (parse : List Char → Option UrlParts) (gs : Groups) (l : BrandAsset) :
    Groups :=
  match l.url with
  | none => gs
  | some u =>
    match parse u with
    | some parts => pushGroup gs (groupKeyOf parts) l
    | none => setGroup gs (invalidPre ++ u) [l]

def buildGroups (parse : List Char → Option UrlParts) (logos : List BrandAsset) :
    Groups :=
  logos.foldl (stepG parse) []

/-- deduplicateLogos from src/src/utils/secureHtmlParser.ts: bucket the
candidates by (hostname, normalizedFilename) string key (raw-string key for
unparsable URLs), then emit one best representative per bucket in key
insertion order. -/
def deduplicateLogos (parse : List Char → Option UrlParts)
    (logos : List BrandAsset) : List BrandAsset :=
  (buildGroups parse logos).map (fun p => bestOf cmpLogos p.2)

/-! ## Claim C3: the size-ranking of the deduplicator -/

def icon32 : BrandAsset :=
  { kind := String.data "logo", url := some (String.data "https://acme.test/icon-32.png") }

def icon192 : BrandAsset :=
  { kind := String.data "logo", url := some (String.data "https://acme.test/icon-192.png") }

/-- The grouping-loop invariant: every bucket member carries the bucket's
key, keys are distinct, buckets are nonempty, members come from the input. -/
def invGroups (parse : List Char → Option UrlParts) (logos : List BrandAsset)
    (gs : Groups) : Prop :=
  (∀ p ∈ gs, ∀ l ∈ p.2, logoKey parse l = some p.1) ∧
  (gs.map Prod.fst).Nodup ∧
  (∀ p ∈ gs, p.2 ≠ []) ∧
  (∀ p ∈ gs, ∀ l ∈ p.2, l ∈ logos)

/-- C4 counterexample assets: two parsable candidates sharing the grouping
key (hostname invalid, normalized filename logopng) and one unparsable
candidate whose raw string collides with that key. -/
def colA : BrandAsset :=
  { kind := String.data "logo", url := some (String.data "http://invalid/logo1.png") }

def colB : BrandAsset :=
  { kind := String.data "logo", url := some (String.data "http://invalid/logo2.png") }

def colC : BrandAsset :=
  { kind := String.data "logo", url := some (String.data "logopng") }

/-! ## The parsed-document view and the secure extractors

The source runs cheerio selectors over the parsed markup; the spec treats
that parser as an external collaborator exposing a queryable tree. `Doc`
is that view: the element lists the extractor selectors iterate over,
with the attribute values the extractors read. -/

structure LinkEl where
  rel : Option (List Char) := none
  href : Option (List Char) := none
  sizes : Option (List Char) := none
deriving DecidableEq, Repr

structure ImgEl where
  src : Option (List Char) := none
  alt : Option (List Char) := none
  cls : Option (List Char) := none
  idAttr : Option (List Char) := none
deriving DecidableEq, Repr

structure SvgEl where
  cls : Option (List Char) := none
  idAttr : Option (List Char) := none
  title : List Char := []
  outer : List Char := []
deriving DecidableEq, Repr

structure Doc where
  links : List LinkEl := []
  imgs : List ImgEl := []
  svgs : List SvgEl := []
  styleBlocks : List (List Char) := []
  styleAttrs : List (List Char) := []
deriving DecidableEq, Repr

def logoKL : List Char := ['l', 'o', 'g', 'o']

def fontKL : List Char := ['f', 'o', 'n', 't']

def linkSrcL : List Char := ['l', 'i', 'n', 'k']

def cssSrcL : List Char := ['c', 's', 's']

def htmlSrcL : List Char := ['h', 't', 'm', 'l']

def inlineSrcL : List Char := ['i', 'n', 'l', 'i', 'n', 'e']

def httpL : List Char := ['h', 't', 't', 'p']

def httpsL : List Char := ['h', 't', 't', 'p', 's']

def gfontsHostL : List Char :=
  ['f', 'o', 'n', 't', 's', '.', 'g', 'o', 'o', 'g', 'l', 'e', 'a', 'p', 'i', 's',
   '.', 'c', 'o', 'm']

def famKeyL : List Char := ['f', 'a', 'm', 'i', 'l', 'y', '=']

/-- Capture of /family=([^&"']*)/i when anchored at the head. -/
def famAt (s : List Char) : Option (List Char) :=
  (dropLit famKeyL s).map (fun r => r.takeWhile (fun c => !(c = '&' || isQuoteC c)))

/-- First match of /family=([^&"']*)/i anywhere in the string. -/
def findFamily : Nat → List Char → Option (List Char)
  | 0, _ => none
  | f + 1, s =>
    match famAt s with
    | some g => some g
    | none =>
      match s with
      | [] => none
      | _ :: cs => findFamily f cs

def hexValC (c : Char) : Option Nat :=
  if '0' ≤ c ∧ c ≤ '9' then some (c.toNat - 48)
  else if 'a' ≤ c ∧ c ≤ 'f' then some (c.toNat - 87)
  else if 'A' ≤ c ∧ c ≤ 'F' then some (c.toNat - 55)
  else none

/-- decodeURIComponent on well-formed input (ASCII fragment); a malformed
escape, where the real function would throw, is kept verbatim. -/
def decodeURI : Nat → List Char → List Char
  | 0, s => s
  | _ + 1, [] => []
  | f + 1, '%' :: a :: b :: rest =>
    match hexValC a, hexValC b with
    | some x, some y => Char.ofNat (16 * x + y) :: decodeURI f rest
    | _, _ => '%' :: decodeURI f (a :: b :: rest)
  | f + 1, c :: rest => c :: decodeURI f rest

/-- String.prototype.split on a single separator character. -/
def splitOn (sep : Char) : List Char → List (List Char)
  | [] => [[]]
  | c :: cs =>
    match splitOn sep cs with
    | [] => [[]]
    | h :: t => if c = sep then [] :: h :: t else (c :: h) :: t

/-- isGenericFont from src/src/utils/secureHtmlParser.ts lines 746-749: the
candidate name is lowercased and compared against the list as written - note
the list entry BlinkMacSystemFont keeps its capitals, so no lowercased name
ever equals it. -/
def genericFonts : List (List Char) :=
  [['s', 'e', 'r', 'i', 'f'],
   ['s', 'a', 'n', 's', '-', 's', 'e', 'r', 'i', 'f'],
   ['m', 'o', 'n', 'o', 's', 'p', 'a', 'c', 'e'],
   ['c', 'u', 'r', 's', 'i', 'v', 'e'],
   ['f', 'a', 'n', 't', 'a', 's', 'y'],
   ['s', 'y', 's', 't', 'e', 'm', '-', 'u', 'i'],
   ['-', 'a', 'p', 'p', 'l', 'e', '-', 's', 'y', 's', 't', 'e', 'm'],
   ['B', 'l', 'i', 'n', 'k', 'M', 'a', 'c', 'S', 'y', 's', 't', 'e', 'm',
    'F', 'o', 'n', 't']]

def isGenericFont (fontName : List Char) : Bool :=
  decide ((fontName.map lowerC) ∈ genericFonts)

def ffL : List Char :=
  ['f', 'o', 'n', 't', '-', 'f', 'a', 'm', 'i', 'l', 'y']

/-- Matcher for /font-family\s*:\s*[^;}]+/gi . -/
def tmFontFamily (s : List Char) : Option Nat :=
  match dropLit ffL s with
  | none => none
  | some r =>
    let a := runLen isWsC r
    match r.drop a with
    | ':' :: r2 =>
      let b := runLen isWsC r2
      let v := runLen (fun c => !(c = ';' || c = Char.ofNat 125)) (r2.drop b)
      if v = 0 then none else some (11 + a + 1 + b + v)
    | _ => none

/-- All matched substrings of a global regex (String.prototype.match with g). -/
def matchAll (tm : List Char → Option Nat) : Nat → List Char → List (List Char)
  | 0, _ => []
  | f + 1, s =>
    match s with
    | [] => []
    | c :: cs =>
      match tm s with
      | some (n + 1) => (s.take (n + 1)) :: matchAll tm f (List.drop n cs)
      | _ => matchAll tm f cs

/-- The value part of a font-family match: the match with its
font-family\s*:\s* head replaced by the empty string. -/
def stripFFColon (m : List Char) : List Char :=
  match dropLit ffL m with
  | none => m
  | some r =>
    match r.drop (runLen isWsC r) with
    | ':' :: r2 => r2.drop (runLen isWsC r2)
    | _ => m

abbrev FontAcc := List BrandAsset × List (List Char)

def addFont (src : List Char) (url : Option (List Char)) (acc : FontAcc)
    (name : List Char) : FontAcc :=
  if name ∈ acc.2 then acc
  else (acc.1 ++ [{ kind := fontKL, url := url, name := some name,
                    source := some src }], acc.2 ++ [name])

/-- One comma-separated entry of a font-family declaration: trim, strip
quotes, then keep it unless it is generic or already seen. -/
def ffFontStep (acc : FontAcc) (f : List Char) : FontAcc :=
  let cleanFont := (trimL f).filter (fun c => !isQuoteC c)
  if !isGenericFont cleanFont && !(cleanFont ∈ acc.2) then
    addFont cssSrcL none acc cleanFont
  else acc

def ffMatchStep (acc : FontAcc) (m : List Char) : FontAcc :=
  (splitOn ',' (trimL (stripFFColon m))).foldl ffFontStep acc

/-- extractFontFamiliesFromCSS from src/src/utils/secureHtmlParser.ts
lines 721-741, threading the fonts list and the deduplication set. -/
def extractFFCSS (css : List Char) (acc : FontAcc) : FontAcc :=
  (matchAll tmFontFamily css.length css).foldl ffMatchStep acc

def plusToSpace (c : Char) : Char := if c = '+' then ' ' else c

/-- One pipe-separated family of a Google-Fonts href: drop the :weight
suffix, decode plus signs, keep unless already seen. -/
def gfamStep (url : UrlParts) (acc : FontAcc) (family : List Char) : FontAcc :=
  let fontName := ((splitOn ':' family).headD []).map plusToSpace
  if fontName ∈ acc.2 then acc
  else addFont linkSrcL (some (hrefOf url)) acc fontName

/-- The Google-Fonts link branch of extractFontsSecurely (lines 675-704):
resolve and protocol-check the href, pull the family parameter, split
multi-family values on the pipe; no generic-font filtering happens on
this path. -/
def gfontStep (base : List Char) (acc : FontAcc) (el : LinkEl) : FontAcc :=
  match el.href with
  | none => acc
  | some href =>
    if containsSub gfontsHostL href then
      match resolveUrlM href base with
      | none => acc
      | some url =>
        if url.scheme = httpL || url.scheme = httpsL then
          match findFamily (href.length + 1) href with
          | none => acc
          | some fam =>
            (splitOn '|' (decodeURI fam.length fam)).foldl (gfamStep url) acc
        else acc
    else acc

/-- extractFontsSecurely from src/src/utils/secureHtmlParser.ts lines
670-719: Google-Fonts links, then style blocks, then style attributes
containing font-family. -/
def extractFontsSecurely (doc : Doc) (base : List Char) : List BrandAsset :=
  let acc1 := doc.links.foldl (gfontStep base) ([], [])
  let acc2 := doc.styleBlocks.foldl (fun a css => extractFFCSS css a) acc1
  let acc3 := (doc.styleAttrs.filter (fun st => containsSub ffL st)).foldl
    (fun a st => extractFFCSS st a) acc2
  acc3.1

/-- The seven all-lowercase entries of the generic list: the exclusions the
filter can actually enforce. -/
def cssGeneric7 : List (List Char) :=
  [['s', 'e', 'r', 'i', 'f'],
   ['s', 'a', 'n', 's', '-', 's', 'e', 'r', 'i', 'f'],
   ['m', 'o', 'n', 'o', 's', 'p', 'a', 'c', 'e'],
   ['c', 'u', 'r', 's', 'i', 'v', 'e'],
   ['f', 'a', 'n', 't', 'a', 's', 'y'],
   ['s', 'y', 's', 't', 'e', 'm', '-', 'u', 'i'],
   ['-', 'a', 'p', 'p', 'l', 'e', '-', 's', 'y', 's', 't', 'e', 'm']]

def fontOk (f : BrandAsset) : Prop :=
  f.source = some linkSrcL ∨ ∀ n, f.name = some n → ¬((n.map lowerC) ∈ cssGeneric7)

def fontInv (acc : FontAcc) : Prop := ∀ f ∈ acc.1, fontOk f

/-- C5 counterexample document: a Google-Fonts link whose family parameter
is the generic keyword sans-serif, and a style block naming
BlinkMacSystemFont. -/
def c5doc : Doc :=
  { links := [{ rel := some (String.data "stylesheet"),
                href := some (String.data "https://fonts.googleapis.com/css?family=sans-serif") }],
    styleBlocks := [String.data "h1{font-family:sans-serif,BlinkMacSystemFont}"] }

/-! ## Claim C6: absoluteness of extracted URLs -/

def logoKeywords : List (List Char) :=
  [['l', 'o', 'g', 'o'], ['b', 'r', 'a', 'n', 'd'], ['m', 'a', 'r', 'k'],
   ['i', 'c', 'o', 'n']]

/-- isLikelyLogo from src/src/utils/secureHtmlParser.ts lines 572-576: a
case-insensitive keyword search over "src alt class id". -/
def isLikelyLogo4 (src alt cls id : List Char) : Bool :=
  logoKeywords.any (fun kw =>
    containsSub kw ((src ++ ' ' :: (alt ++ ' ' :: (cls ++ ' ' :: id))).map lowerC))

/-- The three-argument variant of the regex-based parser in
src/src/utils/assetExtraction.ts lines 167-171 (no id). -/
def isLikelyLogo3 (src alt cls : List Char) : Bool :=
  logoKeywords.any (fun kw =>
    containsSub kw ((src ++ ' ' :: (alt ++ ' ' :: cls)).map lowerC))

def iconRels : List (List Char) :=
  [String.data "icon", String.data "shortcut icon", String.data "apple-touch-icon",
   String.data "apple-touch-icon-precomposed"]

def faviconAltL : List Char := String.data "Favicon"

def favOpenL : List Char := String.data "Favicon ("

def favAlt (sizes : Option (List Char)) : List Char :=
  match sizes with
  | some sz => if sz = [] then faviconAltL else favOpenL ++ sz ++ [')']
  | none => faviconAltL

/-- The favicon/touch-icon link branch of extractLogosSecurely (lines
495-515). -/
def iconLinkStep (base : List Char) (acc : List BrandAsset) (el : LinkEl) :
    List BrandAsset :=
  match el.rel with
  | none => acc
  | some r =>
    if r ∈ iconRels then
      match el.href with
      | none => acc
      | some href =>
        match resolveUrlM href base with
        | none => acc
        | some url =>
          if url.scheme = httpL || url.scheme = httpsL then
            acc ++ [{ kind := logoKL, url := some (hrefOf url),
                      alt := some (favAlt el.sizes), source := some linkSrcL }]
          else acc
    else acc

/-- The logo-image branch of extractLogosSecurely (lines 517-543). -/
def imgLogoStep (base : List Char) (acc : List BrandAsset) (el : ImgEl) :
    List BrandAsset :=
  match el.src with
  | none => acc
  | some src =>
    match resolveUrlM src base with
    | none => acc
    | some url =>
      if url.scheme = httpL || url.scheme = httpsL then
        if isLikelyLogo4 src (el.alt.getD []) (el.cls.getD []) (el.idAttr.getD []) then
          acc ++ [{ kind := logoKL, url := some (hrefOf url),
                    alt := match el.alt.getD [] with
                           | [] => none
                           | a => some a,
                    source := some htmlSrcL }]
        else acc
      else acc

def b64Alphabet : List Char :=
  String.data "ABCDEFGHIJKLMNOPQRSTUVWXYZabcdefghijklmnopqrstuvwxyz0123456789+/"

def b64c (n : Nat) : Char := b64Alphabet.getD n 'A'

def base64Go : Nat → List Nat → List Char
  | 0, _ => []
  | _ + 1, [] => []
  | _ + 1, [a] => [b64c (a / 4), b64c ((a % 4) * 16), '=', '=']
  | _ + 1, [a, b] => [b64c (a / 4), b64c ((a % 4) * 16 + b / 16), b64c ((b % 16) * 4), '=']
  | f + 1, a :: b :: c :: rest =>
    b64c (a / 4) :: b64c ((a % 4) * 16 + b / 16) ::
      b64c ((b % 16) * 4 + c / 64) :: b64c (c % 64) :: base64Go f rest

/-- Buffer.from(str).toString('base64') for ASCII content. -/
def base64 (s : List Char) : List Char :=
  base64Go s.length (s.map (fun c => c.toNat % 256))

def dataPreL : List Char := String.data "data:image/svg+xml;base64,"

def inlineSvgAltL : List Char := String.data "Inline SVG logo"

/-- The inline-SVG branch of extractLogosSecurely (lines 545-564). -/
def svgLogoStep (acc : List BrandAsset) (el : SvgEl) : List BrandAsset :=
  if isLikelyLogo4 [] el.title (el.cls.getD []) (el.idAttr.getD []) then
    if el.outer = [] then acc
    else acc ++ [{ kind := logoKL, url := some (dataPreL ++ base64 el.outer),
                   alt := some (match el.title with
                                | [] => inlineSvgAltL
                                | t => t),
                   source := some inlineSrcL }]
  else acc

/-- extractLogosSecurely from src/src/utils/secureHtmlParser.ts lines
491-567: icon links, then logo-like images, then logo-like inline SVGs. -/
def extractLogosSecurely (doc : Doc) (base : List Char) : List BrandAsset :=
  doc.svgs.foldl svgLogoStep
    (doc.imgs.foldl (imgLogoStep base)
      (doc.links.foldl (iconLinkStep base) []))

def httpPreL : List Char := ['h', 't', 't', 'p', ':', '/', '/']

def httpsPreL : List Char := ['h', 't', 't', 'p', 's', ':', '/', '/']

/-- A URL-bearing output is absolute: it carries an explicit http/https
origin or is a self-contained data: URL. -/
def absoluteOut (l : BrandAsset) : Prop :=
  ∃ u, l.url = some u ∧
    (startsWithL httpPreL u = true ∨ startsWithL httpsPreL u = true ∨
      startsWithL dataPreL u = true)

/-! ## The legacy regex-based pipeline, src/src/utils/assetExtraction.ts -/

/-- resolveUrl from src/src/utils/assetExtraction.ts lines 343-349:
new URL(url, baseUrl).href, but the catch branch returns the raw input
unchanged when the constructor throws. -/
def resolveUrl (url base : List Char) : List Char :=
  match resolveUrlM url base with
  | some u => hrefOf u
  | none => url

def linkOpenL : List Char := ['<', 'l', 'i', 'n', 'k']

def imgOpenL : List Char := ['<', 'i', 'm', 'g']

def relEqL : List Char := ['r', 'e', 'l', '=']

def relAlts : List (List Char) :=
  [String.data "icon", String.data "apple-touch-icon", String.data "shortcut icon"]

def relAltsOk : List (List Char) → List Char → Bool
  | [], _ => false
  | alt :: rest, s =>
    (match dropLit alt s with
     | some (q2 :: _) => isQuoteC q2
     | _ => false) || relAltsOk rest s

/-- rel=["'](?:icon|apple-touch-icon|shortcut icon)["'] anchored at the
head. -/
def relAtOk (s : List Char) : Bool :=
  match dropLit relEqL s with
  | some (q :: r) => isQuoteC q && relAltsOk relAlts r
  | _ => false

def containsRelAt : Nat → List Char → Bool
  | 0, _ => false
  | f + 1, s =>
    relAtOk s ||
      match s with
      | [] => false
      | _ :: cs => containsRelAt f cs

/-- Matcher for /<link[^>]*rel=["'](?:icon|apple-touch-icon|shortcut
icon)["'][^>]*>/gi : every character between the literal and the closing
quote is >-free, so the match reaches exactly the first > after the
literal and the rel part sits inside that >-free region. -/
def tmLinkIcon (s : List Char) : Option Nat :=
  match dropLit linkOpenL s with
  | none => none
  | some r =>
    let region := r.takeWhile (fun c => !(c = '>'))
    match r.drop region.length with
    | '>' :: _ =>
      if containsRelAt (region.length + 1) region then some (5 + region.length + 1)
      else none
    | _ => none

/-- Matcher for /<img[^>]*>/gi . -/
def tmImgTag (s : List Char) : Option Nat :=
  match dropLit imgOpenL s with
  | none => none
  | some r =>
    let region := r.takeWhile (fun c => !(c = '>'))
    match r.drop region.length with
    | '>' :: _ => some (4 + region.length + 1)
    | _ => none

def hrefEqL : List Char := ['h', 'r', 'e', 'f', '=']

def srcEqL : List Char := ['s', 'r', 'c', '=']

def altEqL : List Char := ['a', 'l', 't', '=']

def classEqL : List Char := ['c', 'l', 'a', 's', 's', '=']

/-- Capture of /key=["']([^"']+)["']/i when anchored at the head. -/
def attrValAt (key : List Char) (s : List Char) : Option (List Char) :=
  match dropLit key s with
  | some (q :: r) =>
    if isQuoteC q then
      let v := r.takeWhile (fun c => !isQuoteC c)
      if v = [] then none
      else
        match r.drop v.length with
        | q2 :: _ => if isQuoteC q2 then some v else none
        | [] => none
    else none
  | _ => none

/-- First capture of /key=["']([^"']+)["']/i anywhere in the string. -/
def findAttrVal (key : List Char) : Nat → List Char → Option (List Char)
  | 0, _ => none
  | f + 1, s =>
    match attrValAt key s with
    | some v => some v
    | none =>
      match s with
      | [] => none
      | _ :: cs => findAttrVal key f cs

/-- One favicon/touch-icon link match of the legacy extractLogos (lines
124-135). -/
def iconMatchStep (base : List Char) (acc : List BrandAsset) (m : List Char) :
    List BrandAsset :=
  match findAttrVal hrefEqL (m.length + 1) m with
  | none => acc
  | some href =>
    acc ++ [{ kind := logoKL, url := some (resolveUrl href base),
              source := some linkSrcL, alt := some faviconAltL }]

/-- One img match of the legacy extractLogos (lines 138-159). -/
def imgLogoOldStep (base : List Char) (acc : List BrandAsset) (m : List Char) :
    List BrandAsset :=
  match findAttrVal srcEqL (m.length + 1) m with
  | none => acc
  | some src =>
    let alt := (findAttrVal altEqL (m.length + 1) m).getD []
    let cls := (findAttrVal classEqL (m.length + 1) m).getD []
    if isLikelyLogo3 src alt cls then
      acc ++ [{ kind := logoKL, url := some (resolveUrl src base),
                alt := match alt with
                       | [] => none
                       | a => some a,
                source := some htmlSrcL }]
    else acc

/-- extractLogos from src/src/utils/assetExtraction.ts lines 120-162. -/
def extractLogosOld (html base : List Char) : List BrandAsset :=
  (matchAll tmImgTag html.length html).foldl (imgLogoOldStep base)
    ((matchAll tmLinkIcon html.length html).foldl (iconMatchStep base) [])

def colorKL : List Char := ['c', 'o', 'l', 'o', 'r']

def illusKL : List Char := String.data "illustration"

/-- Matcher for /#[0-9a-f]{6}|#[0-9a-f]{3}/gi . -/
def tmHexColor (s : List Char) : Option Nat :=
  match s with
  | '#' :: r =>
    let n := runLen (fun c => isLowerHexC (lowerC c)) r
    if 6 ≤ n then some 7 else if 3 ≤ n then some 4 else none
  | _ => none

/-- A \s*\d+ group: its consumed length and the remainder. -/
def numGroupLen (s : List Char) : Option (Nat × List Char) :=
  let w := runLen isWsC s
  let d := runLen isDigitC (s.drop w)
  if d = 0 then none else some (w + d, s.drop (w + d))

/-- A \s*[0-9.]+ group: its consumed length and the remainder. -/
def numDotGroupLen (s : List Char) : Option (Nat × List Char) :=
  let w := runLen isWsC s
  let d := runLen (fun c => isDigitC c || c = '.') (s.drop w)
  if d = 0 then none else some (w + d, s.drop (w + d))

def wsLen (s : List Char) : Nat × List Char :=
  (runLen isWsC s, s.drop (runLen isWsC s))

/-- Matcher for /rgb\(\s*\d+\s*,\s*\d+\s*,\s*\d+\s*\)/gi . -/
def tmRgbColor (s : List Char) : Option Nat :=
  match dropLit rgbOpenL s with
  | none => none
  | some r =>
    match numGroupLen r with
    | none => none
    | some (n1, r1) =>
      match wsLen r1 with
      | (w1, ',' :: r3) =>
        match numGroupLen r3 with
        | none => none
        | some (n2, r4) =>
          match wsLen r4 with
          | (w2, ',' :: r6) =>
            match numGroupLen r6 with
            | none => none
            | some (n3, r7) =>
              match wsLen r7 with
              | (w3, ')' :: _) => some (4 + n1 + w1 + 1 + n2 + w2 + 1 + n3 + w3 + 1)
              | _ => none
          | _ => none
      | _ => none

/-- Matcher for /rgba\(\s*\d+\s*,\s*\d+\s*,\s*\d+\s*,\s*[0-9.]+\s*\)/gi . -/
def tmRgbaColor (s : List Char) : Option Nat :=
  match dropLit rgbaOpenL s with
  | none => none
  | some r =>
    match numGroupLen r with
    | none => none
    | some (n1, r1) =>
      match wsLen r1 with
      | (w1, ',' :: r3) =>
        match numGroupLen r3 with
        | none => none
        | some (n2, r4) =>
          match wsLen r4 with
          | (w2, ',' :: r6) =>
            match numGroupLen r6 with
            | none => none
            | some (n3, r7) =>
              match wsLen r7 with
              | (w3, ',' :: r9) =>
                match numDotGroupLen r9 with
                | none => none
                | some (n4, r10) =>
                  match wsLen r10 with
                  | (w4, ')' :: _) =>
                    some (5 + n1 + w1 + 1 + n2 + w2 + 1 + n3 + w3 + 1 + n4 + w4 + 1)
                  | _ => none
              | _ => none
          | _ => none
      | _ => none

/-- Matcher for /hsl\(\s*\d+\s*,\s*\d+%\s*,\s*\d+%\s*\)/gi . -/
def tmHslColor (s : List Char) : Option Nat :=
  match dropLit hslOpenL s with
  | none => none
  | some r =>
    match numGroupLen r with
    | none => none
    | some (n1, r1) =>
      match wsLen r1 with
      | (w1, ',' :: r3) =>
        match numGroupLen r3 with
        | none => none
        | some (n2, r4) =>
          match r4 with
          | '%' :: r5 =>
            match wsLen r5 with
            | (w2, ',' :: r7) =>
              match numGroupLen r7 with
              | none => none
              | some (n3, r8) =>
                match r8 with
                | '%' :: r9 =>
                  match wsLen r9 with
                  | (w3, ')' :: _) =>
                    some (4 + n1 + w1 + 1 + n2 + 1 + w2 + 1 + n3 + 1 + w3 + 1)
                  | _ => none
                | _ => none
            | _ => none
          | _ => none
      | _ => none

/-- One color match: normalize, then keep unless falsy or already seen
(lines 190-200). -/
def colorStep (acc : List BrandAsset × List (List Char)) (m : List Char) :
    List BrandAsset × List (List Char) :=
  let n := normalizeColorL m
  if n = [] then acc
  else if n ∈ acc.2 then acc
  else (acc.1 ++ [{ kind := colorKL, value := some n, source := some cssSrcL }],
        acc.2 ++ [n])

/-- extractColors from src/src/utils/assetExtraction.ts lines 176-204: the
four color patterns applied in order over the whole markup, sharing one
seen-set. -/
def extractColorsOld (html : List Char) : List BrandAsset :=
  ([tmHexColor, tmRgbColor, tmRgbaColor, tmHslColor].foldl
    (fun acc tm => (matchAll tm html.length html).foldl colorStep acc)
    ([], [])).1

def gfLitL : List Char := String.data "fonts.googleapis.com/css"

/-- Matcher for /fonts\.googleapis\.com\/css[^"']*/gi . -/
def tmGFonts (s : List Char) : Option Nat :=
  match dropLit gfLitL s with
  | none => none
  | some r => some (24 + runLen (fun c => !isQuoteC c) r)

/-- One pipe-separated family of a legacy Google-Fonts match: drop the
:weight suffix, decode plus signs, keep unless already seen; no URL is
attached and no generic-font check happens (lines 249-259). -/
def gfamOldStep (acc : FontAcc) (family : List Char) : FontAcc :=
  let fontName := ((splitOn ':' family).headD []).map plusToSpace
  if fontName ∈ acc.2 then acc
  else addFont linkSrcL none acc fontName

def gfMatchStepOld (acc : FontAcc) (m : List Char) : FontAcc :=
  match findFamily (m.length + 1) m with
  | none => acc
  | some fam => (splitOn '|' (decodeURI fam.length fam)).foldl gfamOldStep acc

/-- extractFonts from src/src/utils/assetExtraction.ts lines 239-284:
Google-Fonts matches over the raw markup, then font-family declarations,
sharing one seen-set. -/
def extractFontsOld (html : List Char) : List BrandAsset :=
  ((matchAll tmFontFamily html.length html).foldl ffMatchStep
    ((matchAll tmGFonts html.length html).foldl gfMatchStepOld ([], []))).1

/-- One img match of the legacy extractIllustrations (lines 301-322): the
images that do not look like logos. -/
def imgIllusStep (base : List Char) (acc : List BrandAsset) (m : List Char) :
    List BrandAsset :=
  match findAttrVal srcEqL (m.length + 1) m with
  | none => acc
  | some src =>
    let alt := (findAttrVal altEqL (m.length + 1) m).getD []
    let cls := (findAttrVal classEqL (m.length + 1) m).getD []
    if isLikelyLogo3 src alt cls then acc
    else
      acc ++ [{ kind := illusKL, url := some (resolveUrl src base),
                alt := match alt with
                       | [] => none
                       | a => some a,
                source := some htmlSrcL }]

def bgiL : List Char := String.data "background-image"

def urlOpenL : List Char := ['u', 'r', 'l', '(']

/-- Matcher for /background-image\s*:\s*url\([^)]+\)/gi . -/
def tmBgImage (s : List Char) : Option Nat :=
  match dropLit bgiL s with
  | none => none
  | some r =>
    let a := runLen isWsC r
    match r.drop a with
    | ':' :: r2 =>
      let b := runLen isWsC r2
      match dropLit urlOpenL (r2.drop b) with
      | none => none
      | some r3 =>
        let v := runLen (fun c => !(c = ')')) r3
        if v = 0 then none
        else
          match r3.drop v with
          | ')' :: _ => some (16 + a + 1 + b + 4 + v + 1)
          | _ => none
    | _ => none

/-- Longest nonempty quote-free capture in `run` that is followed inside
`run` by a closing parenthesis (the backtracking of ([^'"]+)['"]?\) when
the optional quote is absent). -/
def lastParenSplit (run : List Char) : Option (List Char) :=
  match run.reverse.dropWhile (fun c => !(c = ')')) with
  | ')' :: prev =>
    match prev.reverse with
    | [] => none
    | p => some p
  | _ => none

/-- Capture of /url\(['"]?([^'"]+)['"]?\)/i after the url( literal. -/
def urlArgAfter (rest : List Char) : Option (List Char) :=
  match rest with
  | [] => none
  | q :: t =>
    if isQuoteC q then
      let run := t.takeWhile (fun c => !isQuoteC c)
      match t.drop run.length with
      | q2 :: ')' :: _ =>
        if isQuoteC q2 && !(run = []) then some run else lastParenSplit run
      | _ => lastParenSplit run
    else
      let run := rest.takeWhile (fun c => !isQuoteC c)
      match rest.drop run.length with
      | q2 :: ')' :: _ =>
        if isQuoteC q2 && !(run = []) then some run else lastParenSplit run
      | _ => lastParenSplit run

/-- First capture of /url\(['"]?([^'"]+)['"]?\)/i anywhere in the string. -/
def findUrlArg : Nat → List Char → Option (List Char)
  | 0, _ => none
  | f + 1, s =>
    match dropLit urlOpenL s with
    | some rest =>
      match urlArgAfter rest with
      | some v => some v
      | none =>
        match s with
        | [] => none
        | _ :: cs => findUrlArg f cs
    | none =>
      match s with
      | [] => none
      | _ :: cs => findUrlArg f cs

/-- One background-image match of the legacy extractIllustrations (lines
325-335). -/
def bgStep (base : List Char) (acc : List BrandAsset) (m : List Char) :
    List BrandAsset :=
  match findUrlArg (m.length + 1) m with
  | none => acc
  | some arg =>
    acc ++ [{ kind := illusKL, url := some (resolveUrl arg base),
              source := some cssSrcL }]

/-- extractIllustrations from src/src/utils/assetExtraction.ts lines
297-338. -/
def extractIllustrationsOld (html base : List Char) : List BrandAsset :=
  (matchAll tmBgImage html.length html).foldl (bgStep base)
    ((matchAll tmImgTag html.length html).foldl (imgIllusStep base) [])

structure ExtractedAssets where
  logos : List BrandAsset := []
  colors : List BrandAsset := []
  fonts : List BrandAsset := []
  illustrations : List BrandAsset := []
deriving DecidableEq, Repr

/-- deduplicateByUrl (lines 363-374): falsy (absent or empty) urls are
kept and never recorded. -/
def dedupByUrl (seen : List (List Char)) : List BrandAsset → List BrandAsset
  | [] => []
  | a :: rest =>
    match a.url with
    | some u =>
      if u = [] then a :: dedupByUrl seen rest
      else if u ∈ seen then dedupByUrl seen rest
      else a :: dedupByUrl (seen ++ [u]) rest
    | none => a :: dedupByUrl seen rest

def dedupByValue (seen : List (List Char)) : List BrandAsset → List BrandAsset
  | [] => []
  | a :: rest =>
    match a.value with
    | some u =>
      if u = [] then a :: dedupByValue seen rest
      else if u ∈ seen then dedupByValue seen rest
      else a :: dedupByValue (seen ++ [u]) rest
    | none => a :: dedupByValue seen rest

def dedupByName (seen : List (List Char)) : List BrandAsset → List BrandAsset
  | [] => []
  | a :: rest =>
    match a.name with
    | some u =>
      if u = [] then a :: dedupByName seen rest
      else if u ∈ seen then dedupByName seen rest
      else a :: dedupByName (seen ++ [u]) rest
    | none => a :: dedupByName seen rest

/-- parseHtmlForAssets from src/src/utils/assetExtraction.ts lines 90-115:
the four extractors followed by deduplicateAssets. -/
def parseHtmlForAssetsOld (html base : List Char) : ExtractedAssets :=
  { logos := dedupByUrl [] (extractLogosOld html base),
    colors := dedupByValue [] (extractColorsOld html),
    fonts := dedupByName [] (extractFontsOld html),
    illustrations := dedupByUrl [] (extractIllustrationsOld html base) }

/-! ## Rate limiter, src/src/utils/rateLimiter.ts

The KV namespace is an abstract store interface whose operations may fail
(`Except Unit` models a thrown exception); `kvHonest` is a faithful
in-memory instance. `Date.now()` is a nonnegative integer, so `now : Nat`;
`Math.floor(now / WINDOW_SIZE) * WINDOW_SIZE` is Nat division. JS numbers
that may be NaN are `Option Int`. -/

structure RateLimitResult where
  limited : Bool
  remaining : Option Int
  resetTime : Nat
deriving DecidableEq, Repr

structure KV (σ : Type) where
  get : σ → List Char → Except Unit (Option (List Char))
  put : σ → List Char → List Char → Nat → Except Unit σ

def WINDOW_SIZE : Nat := 3600000

def MAX_REQUESTS : Int := 100

def ratePreL : List Char := String.data "rate_limit:"

def winOf (now : Nat) : Nat := now / WINDOW_SIZE * WINDOW_SIZE

/-- Decimal digits of a natural number (Number.prototype.toString()). -/
def toDecGo : Nat → Nat → List Char
  | 0, n => [hexDigitC (n % 10)]
  | f + 1, n => if n < 10 then [hexDigitC n] else toDecGo f (n / 10) ++ [hexDigitC (n % 10)]

def natToDec (n : Nat) : List Char := toDecGo n n

def intToDec (i : Int) : List Char :=
  if i < 0 then '-' :: natToDec i.natAbs else natToDec i.natAbs

/-- Number.prototype.toString() on a possibly-NaN number. -/
def jsNumToString : Option Int → List Char
  | none => String.data "NaN"
  | some i => intToDec i

def parseDigits (r : List Char) : Option Nat :=
  let d := r.takeWhile isDigitC
  if d.isEmpty then none else some (digitsVal d)

/-- parseInt(s, 10): skip leading whitespace, optional sign, then the
leading digit run; NaN (`none`) when no digits follow. -/
def parseIntDec (s : List Char) : Option Int :=
  match s.dropWhile isWsC with
  | '-' :: r => (parseDigits r).map (fun n => -(n : Int))
  | '+' :: r => (parseDigits r).map (fun n => (n : Int))
  | r => (parseDigits r).map (fun n => (n : Int))

/-- currentCountStr ? parseInt(currentCountStr, 10) : 0 — a missing value
and the falsy empty string both count as 0. -/
def countOf : Option (List Char) → Option Int
  | none => some 0
  | some s => if s = [] then some 0 else parseIntDec s

/-- JS `a >= b` with a possibly-NaN left operand: NaN comparisons are
false. -/
def jsGE : Option Int → Int → Bool
  | some a, b => b ≤ a
  | none, _ => false

def jsAdd1 : Option Int → Option Int
  | some a => some (a + 1)
  | none => none

def rateKey (clientIp : List Char) (windowStart : Nat) : List Char :=
  ratePreL ++ clientIp ++ ':' :: natToDec windowStart

/-- checkRateLimit from src/src/utils/rateLimiter.ts lines 23-71. The
catch branch covers a throwing get as well as a throwing put; either way
the state is returned unchanged and the request is allowed. -/
def checkRateLimit {σ : Type} (kv : KV σ) (clientIp : List Char) (now : Nat)
    (st : σ) : RateLimitResult × σ :=
  let windowStart := winOf now
  let resetTime := windowStart + WINDOW_SIZE
  let key := rateKey clientIp windowStart
  match kv.get st key with
  | .error _ =>
    ({ limited := false, remaining := some (MAX_REQUESTS - 1),
       resetTime := resetTime }, st)
  | .ok cur =>
    let currentCount := countOf cur
    if jsGE currentCount MAX_REQUESTS then
      ({ limited := true, remaining := some 0, resetTime := resetTime }, st)
    else
      let newCount := jsAdd1 currentCount
      let ttl := (resetTime - now + 999) / 1000
      match kv.put st key (jsNumToString newCount) ttl with
      | .error _ =>
        ({ limited := false, remaining := some (MAX_REQUESTS - 1),
           resetTime := resetTime }, st)
      | .ok st2 =>
        ({ limited := false, remaining := jsSub (some MAX_REQUESTS) newCount,
           resetTime := resetTime }, st2)

structure KVEntry where
  key : List Char
  val : List Char
  ttl : Nat
deriving DecidableEq, Repr

abbrev KVStore := List KVEntry

def kvGetL : KVStore → List Char → Option (List Char)
  | [], _ => none
  | e :: rest, k => if e.key = k then some e.val else kvGetL rest k

def kvSet : KVStore → List Char → List Char → Nat → KVStore
  | [], k, v, ttl => [⟨k, v, ttl⟩]
  | e :: rest, k, v, ttl =>
    if e.key = k then ⟨k, v, ttl⟩ :: rest else e :: kvSet rest k v ttl

/-- The faithful in-memory KV namespace: reads and writes never throw. -/
def kvHonest : KV KVStore :=
  { get := fun st k => .ok (kvGetL st k),
    put := fun st k v ttl => .ok (kvSet st k v ttl) }

/-- A store whose reads throw (the backing store is unreachable). -/
def kvGetFails : KV KVStore :=
  { get := fun _ _ => .error (),
    put := fun st k v ttl => .ok (kvSet st k v ttl) }

/-- A store whose writes throw. -/
def kvPutFails : KV KVStore :=
  { get := fun st k => .ok (kvGetL st k),
    put := fun _ _ _ _ => .error () }

/-- The count the limiter would read for `key` from an honest store. -/
def storedCount (st : KVStore) (key : List Char) : Option Int :=
  countOf (kvGetL st key)

/-- `n` sequential calls within one window, threading the store. -/
def runCalls {σ : Type} (kv : KV σ) (ip : List Char) (now : Nat) :
    Nat → σ → List RateLimitResult × σ
  | 0, st => ([], st)
  | k + 1, st =>
    let p := checkRateLimit kv ip now st
    let rest := runCalls kv ip now k p.2
    (p.1 :: rest.1, rest.2)

/-! ## Claim C7: scheme stripping from href/src values in strict mode

The strict sanitizer input considered is an anchor tag whose href/src
attribute holds a javascript: or data: URL over a benign value alphabet
(letters, digits and common URL punctuation, no quotes and no markup
characters). The earlier passes of the chain are shown to be the
identity on every suffix of such an input, and the href/src scheme pass
deletes the whole attribute. -/

def dqC : Char := Char.ofNat 34

def tailBL : List Char := [dqC, '>']

def valAlphabet : List Char :=
  ['a', 'b', 'c', 'd', 'e', 'f', 'g', 'h', 'i', 'j', 'k', 'l', 'm',
   'n', 'o', 'p', 'q', 'r', 's', 't', 'u', 'v', 'w', 'x', 'y', 'z',
   '0', '1', '2', '3', '4', '5', '6', '7', '8', '9',
   '.', '/', '-', '_', '(', ')', ';', ':', ',']

def hrefJsA : List Char :=
  ['<', 'a', ' ', 'h', 'r', 'e', 'f', '=', dqC,
   'j', 'a', 'v', 'a', 's', 'c', 'r', 'i', 'p', 't', ':']

def hrefDataA : List Char :=
  ['<', 'a', ' ', 'h', 'r', 'e', 'f', '=', dqC, 'd', 'a', 't', 'a', ':']

def srcJsA : List Char :=
  ['<', 'a', ' ', 's', 'r', 'c', '=', dqC,
   'j', 'a', 'v', 'a', 's', 'c', 'r', 'i', 'p', 't', ':']

def srcDataA : List Char :=
  ['<', 'a', ' ', 's', 'r', 'c', '=', dqC, 'd', 'a', 't', 'a', ':']

/-! ## Theorems -/

theorem dropLenLe (n : Nat) (l : List Char) : (List.drop n l).length ≤ l.length := by
  simp only [List.length_drop]
  omega

theorem scanF_congr (tm : List Char → Option Nat) :
    ∀ f g s, s.length ≤ f → s.length ≤ g → scanF tm f s = scanF tm g s := by
  intro f
  induction f with
  | zero =>
    intro g s hf _
    have : s = [] := List.eq_nil_of_length_eq_zero (Nat.le_zero.mp hf)
    subst this
    cases g <;> rfl
  | succ f ih =>
    intro g s hf hg
    cases g with
    | zero =>
      have : s = [] := List.eq_nil_of_length_eq_zero (Nat.le_zero.mp hg)
      subst this; rfl
    | succ g =>
      cases s with
      | nil => rfl
      | cons c cs =>
        simp only [scanF]
        have hlen : cs.length ≤ f := by
          simpa [List.length_cons, Nat.succ_le_succ_iff] using hf
        have hleng : cs.length ≤ g := by
          simpa [List.length_cons, Nat.succ_le_succ_iff] using hg
        cases htm : tm (c :: cs) with
        | none => simp [ih g cs hlen hleng]
        | some n =>
          cases n with
          | zero => simp [ih g cs hlen hleng]
          | succ n =>
            have hd : (List.drop n cs).length ≤ f :=
              le_trans (dropLenLe n cs) hlen
            have hdg : (List.drop n cs).length ≤ g :=
              le_trans (dropLenLe n cs) hleng
            simp [ih g _ hd hdg]

theorem gsub_nil (tm : List Char → Option Nat) : gsub tm [] = [] := rfl

theorem gsub_cons_nomatch {tm : List Char → Option Nat} {c : Char} {cs : List Char}
    (h : tm (c :: cs) = none) : gsub tm (c :: cs) = c :: gsub tm cs := by
  simp [gsub, scanF, h]

theorem gsub_cons_match {tm : List Char → Option Nat} {c : Char} {cs : List Char} {n : Nat}
    (h : tm (c :: cs) = some (n + 1)) : gsub tm (c :: cs) = gsub tm (List.drop n cs) := by
  simp only [gsub, List.length_cons, scanF, h]
  exact scanF_congr tm cs.length (List.drop n cs).length (List.drop n cs)
    (dropLenLe n cs) le_rfl

theorem scanF_sublist (tm : List Char → Option Nat) :
    ∀ f s, List.Sublist (scanF tm f s) s := by
  intro f
  induction f with
  | zero => intro s; exact List.Sublist.refl s
  | succ f ih =>
    intro s
    cases s with
    | nil => simp [scanF]
    | cons c cs =>
      simp only [scanF]
      cases htm : tm (c :: cs) with
      | none => exact List.Sublist.cons₂ c (ih cs)
      | some n =>
        cases n with
        | zero => exact List.Sublist.cons₂ c (ih cs)
        | succ n =>
          have h1 : List.Sublist (scanF tm f (List.drop n cs)) (List.drop n cs) := ih _
          have h2 : List.Sublist (List.drop n cs) cs := List.drop_sublist n cs
          exact ((h1.trans h2).trans (List.sublist_cons_self c cs))

/-- `gsub` only deletes characters. -/
theorem gsub_sublist (tm : List Char → Option Nat) (s : List Char) :
    List.Sublist (gsub tm s) s :=
  scanF_sublist tm s.length s

/-- When the pattern matches at no suffix of `s`, the pass is the identity. -/
theorem gsub_eq_self {tm : List Char → Option Nat} :
    ∀ s : List Char, (∀ s', s' <:+ s → tm s' = none) → gsub tm s = s := by
  intro s
  induction s with
  | nil => intro _; rfl
  | cons c cs ih =>
    intro h
    rw [gsub_cons_nomatch (h (c :: cs) (List.suffix_refl _))]
    rw [ih (fun s' hs' => h s' (hs'.trans (List.suffix_cons c cs)))]

theorem sanitizeContentL_sublist (t : List Char) :
    List.Sublist (sanitizeContentL t) t := by
  unfold sanitizeContentL
  split
  · exact List.nil_sublist t
  · have h1 := gsub_sublist tmScript t
    have h2 := (gsub_sublist (tmTagOpen objAlts) _).trans h1
    have h3 := (gsub_sublist (tmTagClose objAlts) _).trans h2
    have h4 := (gsub_sublist (tmTagOpen formAlts) _).trans h3
    have h5 := (gsub_sublist (tmTagClose formAlts) _).trans h4
    have h6 := (gsub_sublist (tmTagOpen frameAlts) _).trans h5
    have h7 := (gsub_sublist (tmTagClose frameAlts) _).trans h6
    have h8 := (gsub_sublist tmOnAny _).trans h7
    have h9 := (gsub_sublist (tmUrlAttr strictSchemes) _).trans h8
    exact (gsub_sublist tmStyleExpr _).trans h9

theorem minimalSanitizeL_sublist (t : List Char) :
    List.Sublist (minimalSanitizeL t) t := by
  unfold minimalSanitizeL
  split
  · exact List.nil_sublist t
  · exact ((gsub_sublist _ _).trans ((gsub_sublist _ _).trans (gsub_sublist _ _)))

/-! ### Helper lemmas for the color normalizer -/

theorem hex_not_ws : ∀ c ∈ hexAlphabet, isWsC c = false := by
  intro c hc
  fin_cases hc <;> decide

theorem hex_lower : ∀ c ∈ hexAlphabet, isLowerHexC (lowerC c) = true := by
  intro c hc
  fin_cases hc <;> decide

theorem digit_not_ws : ∀ c ∈ digitAlphabet, isWsC c = false := by
  intro c hc
  fin_cases hc <;> decide

theorem digit_is_digit : ∀ c ∈ digitAlphabet, isDigitC c = true := by
  intro c hc
  fin_cases hc <;> decide

theorem digit_lower_fix : ∀ c ∈ digitAlphabet, lowerC c = c := by
  intro c hc
  fin_cases hc <;> decide

theorem ws_cases {c : Char} (h : isWsC c = true) :
    c = ' ' ∨ c = Char.ofNat 9 ∨ c = Char.ofNat 10 ∨ c = Char.ofNat 13 ∨
      c = Char.ofNat 12 ∨ c = Char.ofNat 11 := by
  simp only [isWsC, Bool.or_eq_true, decide_eq_true_eq] at h
  tauto

theorem ws_lower_fix {c : Char} (h : isWsC c = true) : lowerC c = c := by
  rcases ws_cases h with h | h | h | h | h | h <;> subst h <;> decide

theorem ws_not_digit {c : Char} (h : isWsC c = true) : isDigitC c = false := by
  rcases ws_cases h with h | h | h | h | h | h <;> subst h <;> decide

theorem dropWhile_cons_false {p : Char → Bool} {c : Char} {cs : List Char}
    (h : p c = false) : (c :: cs).dropWhile p = c :: cs := by
  simp [List.dropWhile_cons, h]

/-- trim is the identity when the string neither starts nor ends with
whitespace. -/
theorem trimL_eq_self {s : List Char}
    (h1 : ∀ c, s.head? = some c → isWsC c = false)
    (h2 : ∀ c, s.getLast? = some c → isWsC c = false) :
    trimL s = s := by
  cases s with
  | nil => rfl
  | cons c cs =>
    unfold trimL
    rw [dropWhile_cons_false (h1 c rfl)]
    have hrev : (c :: cs).reverse.head? = (c :: cs).getLast? := List.head?_reverse _
    cases hr : (c :: cs).reverse with
    | nil => simp at hr
    | cons x xs =>
      have hx : isWsC x = false := by
        apply h2
        rw [← hrev, hr]
        rfl
      rw [dropWhile_cons_false hx, ← hr, List.reverse_reverse]

theorem map_lowerC_id {s : List Char} (h : ∀ c ∈ s, lowerC c = c) :
    s.map lowerC = s := by
  induction s with
  | nil => rfl
  | cons c cs ih =>
    simp only [List.map_cons, h c (List.mem_cons_self c cs), List.cons.injEq, true_and]
    exact ih (fun x hx => h x (List.mem_cons_of_mem c hx))

theorem takeWhile_exact {p : Char → Bool} {a b : List Char}
    (ha : ∀ c ∈ a, p c = true) (hb : ∀ c, b.head? = some c → p c = false) :
    (a ++ b).takeWhile p = a := by
  induction a with
  | nil =>
    cases b with
    | nil => rfl
    | cons x xs => simpa [List.takeWhile_cons] using hb x rfl
  | cons x xs ih =>
    simp [List.takeWhile_cons, ha x (List.mem_cons_self x xs),
      ih (fun c hc => ha c (List.mem_cons_of_mem x hc))]

/-- Consuming a \s* group: drop the whitespace run from the front. -/
theorem step_ws {w rest : List Char} (hw : ∀ c ∈ w, isWsC c = true)
    (hr : ∀ c, rest.head? = some c → isWsC c = false) :
    (w ++ rest).drop (runLen isWsC (w ++ rest)) = rest := by
  rw [runLen, takeWhile_exact hw hr, List.drop_left]

/-- Consuming a \d+ group: the digit run at the front is exactly `d`. -/
theorem step_digits {d rest : List Char} (hd : ∀ c ∈ d, isDigitC c = true)
    (hr : ∀ c, rest.head? = some c → isDigitC c = false) :
    (d ++ rest).takeWhile isDigitC = d := takeWhile_exact hd hr

theorem head_not_digit_wsComma {w X : List Char} (hw : ∀ c ∈ w, isWsC c = true) :
    ∀ c, (w ++ (',' :: X)).head? = some c → isDigitC c = false := by
  cases w with
  | nil =>
    intro c h
    simp only [List.nil_append, List.head?_cons, Option.some.injEq] at h
    subst h
    decide
  | cons a as =>
    intro c h
    simp only [List.cons_append, List.head?_cons, Option.some.injEq] at h
    subst h
    exact ws_not_digit (hw a (List.mem_cons_self a as))

theorem head_not_digit_wsParen {w X : List Char} (hw : ∀ c ∈ w, isWsC c = true) :
    ∀ c, (w ++ (')' :: X)).head? = some c → isDigitC c = false := by
  cases w with
  | nil =>
    intro c h
    simp only [List.nil_append, List.head?_cons, Option.some.injEq] at h
    subst h
    decide
  | cons a as =>
    intro c h
    simp only [List.cons_append, List.head?_cons, Option.some.injEq] at h
    subst h
    exact ws_not_digit (hw a (List.mem_cons_self a as))

theorem head_not_ws_digits {d rest : List Char} (hne : d ≠ [])
    (hd : ∀ c ∈ d, c ∈ digitAlphabet) :
    ∀ c, (d ++ rest).head? = some c → isWsC c = false := by
  cases d with
  | nil => exact absurd rfl hne
  | cons a as =>
    intro c h
    simp only [List.cons_append, List.head?_cons, Option.some.injEq] at h
    subst h
    exact digit_not_ws a (hd a (List.mem_cons_self a as))

theorem head_not_ws_comma {X : List Char} :
    ∀ c, (',' :: X).head? = some c → isWsC c = false := by
  intro c h
  simp only [List.head?_cons, Option.some.injEq] at h
  subst h
  decide

theorem head_not_ws_paren {X : List Char} :
    ∀ c, (')' :: X).head? = some c → isWsC c = false := by
  intro c h
  simp only [List.head?_cons, Option.some.injEq] at h
  subst h
  decide

theorem dropLit_rgbOpen (X : List Char) :
    dropLit rgbOpenL (rgbOpenL ++ X) = some X := rfl

/-- The anchored rgb matcher on a fully general token of the recognized
rgb shape returns exactly the three digit groups. -/
theorem rgbAt_token (w1 w2 w3 w4 w5 w6 d1 d2 d3 : List Char)
    (hw1 : ∀ c ∈ w1, isWsC c = true) (hw2 : ∀ c ∈ w2, isWsC c = true)
    (hw3 : ∀ c ∈ w3, isWsC c = true) (hw4 : ∀ c ∈ w4, isWsC c = true)
    (hw5 : ∀ c ∈ w5, isWsC c = true) (hw6 : ∀ c ∈ w6, isWsC c = true)
    (h1 : d1 ≠ []) (h2 : d2 ≠ []) (h3 : d3 ≠ [])
    (hd1 : ∀ c ∈ d1, c ∈ digitAlphabet) (hd2 : ∀ c ∈ d2, c ∈ digitAlphabet)
    (hd3 : ∀ c ∈ d3, c ∈ digitAlphabet) :
    rgbAt (rgbOpenL ++ (w1 ++ (d1 ++ (w2 ++ (',' :: (w3 ++ (d2 ++ (w4 ++
      (',' :: (w5 ++ (d3 ++ (w6 ++ [')'])))))))))))) = some (d1, d2, d3) := by
  have hd1' : ∀ c ∈ d1, isDigitC c = true := fun c hc => digit_is_digit c (hd1 c hc)
  have hd2' : ∀ c ∈ d2, isDigitC c = true := fun c hc => digit_is_digit c (hd2 c hc)
  have hd3' : ∀ c ∈ d3, isDigitC c = true := fun c hc => digit_is_digit c (hd3 c hc)
  have e2 := @step_ws w1
    (d1 ++ (w2 ++ (',' :: (w3 ++ (d2 ++ (w4 ++ (',' :: (w5 ++ (d3 ++ (w6 ++ [')']))))))))))
    hw1 (head_not_ws_digits h1 hd1)
  have e3 := @step_digits d1
    (w2 ++ (',' :: (w3 ++ (d2 ++ (w4 ++ (',' :: (w5 ++ (d3 ++ (w6 ++ [')'])))))))))
    hd1' (head_not_digit_wsComma hw2)
  have e4 := List.drop_left d1
    (w2 ++ (',' :: (w3 ++ (d2 ++ (w4 ++ (',' :: (w5 ++ (d3 ++ (w6 ++ [')'])))))))))
  have e5 := @step_ws w2
    (',' :: (w3 ++ (d2 ++ (w4 ++ (',' :: (w5 ++ (d3 ++ (w6 ++ [')']))))))))
    hw2 (@head_not_ws_comma (w3 ++ (d2 ++ (w4 ++ (',' :: (w5 ++ (d3 ++ (w6 ++ [')']))))))))
  have e6 := @step_ws w3 (d2 ++ (w4 ++ (',' :: (w5 ++ (d3 ++ (w6 ++ [')']))))))
    hw3 (head_not_ws_digits h2 hd2)
  have e7 := @step_digits d2 (w4 ++ (',' :: (w5 ++ (d3 ++ (w6 ++ [')'])))))
    hd2' (head_not_digit_wsComma hw4)
  have e8 := List.drop_left d2 (w4 ++ (',' :: (w5 ++ (d3 ++ (w6 ++ [')'])))))
  have e9 := @step_ws w4 (',' :: (w5 ++ (d3 ++ (w6 ++ [')']))))
    hw4 (@head_not_ws_comma (w5 ++ (d3 ++ (w6 ++ [')']))))
  have e10 := @step_ws w5 (d3 ++ (w6 ++ [')']))
    hw5 (head_not_ws_digits h3 hd3)
  have e11 := @step_digits d3 (w6 ++ [')']) hd3' (head_not_digit_wsParen hw6)
  have e12 := List.drop_left d3 (w6 ++ [')'])
  have e13 := @step_ws w6 (')' :: []) hw6 (@head_not_ws_paren ([] : List Char))
  obtain ⟨a1, t1, rfl⟩ := List.exists_cons_of_ne_nil h1
  obtain ⟨a2, t2, rfl⟩ := List.exists_cons_of_ne_nil h2
  obtain ⟨a3, t3, rfl⟩ := List.exists_cons_of_ne_nil h3
  simp only [runLen] at e2 e5 e6 e9 e10 e13
  simp only [rgbAt, dropLit_rgbOpen, runLen, e2, e3, e4, e5, e6, e7, e8, e9,
    e10, e11, e12, e13]

theorem head?_memL {l : List Char} {c : Char} (h : l.head? = some c) : c ∈ l := by
  cases l with
  | nil => simp at h
  | cons a as =>
    simp only [List.head?_cons, Option.some.injEq] at h
    subst h
    exact List.mem_cons_self a as

theorem getLast?_memL {l : List Char} {c : Char} (h : l.getLast? = some c) : c ∈ l := by
  rw [← List.head?_reverse] at h
  exact List.mem_reverse.mp (head?_memL h)

set_option maxRecDepth 4000 in
theorem hexPair_fin :
    ∀ v : Fin 256, (padStart2 (toHexStr v.val)).length = 2 ∧
      (padStart2 (toHexStr v.val)).all isLowerHexC = true := by decide

theorem hexPair {v : Nat} (h : v ≤ 255) :
    (padStart2 (toHexStr v)).length = 2 ∧ (padStart2 (toHexStr v)).all isLowerHexC = true :=
  hexPair_fin ⟨v, by omega⟩

theorem normalizeColor_hex_case (ds : List Char) (hlen : ds.length = 3 ∨ ds.length = 6)
    (hds : ∀ c ∈ ds, c ∈ hexAlphabet) :
    matchesHex6 (normalizeColorL ('#' :: ds)) = true := by
  have hall : ∀ c ∈ ('#' :: ds), isWsC c = false := by
    intro c hc
    rcases List.mem_cons.mp hc with rfl | hc
    · decide
    · exact hex_not_ws c (hds c hc)
  have htrim : trimL ('#' :: ds) = '#' :: ds :=
    trimL_eq_self (fun c hc => hall c (head?_memL hc)) (fun c hc => hall c (getLast?_memL hc))
  have hhash : lowerC '#' = '#' := by decide
  have hmap : ('#' :: ds).map lowerC = '#' :: ds.map lowerC := by
    simp [hhash]
  rcases hlen with h3 | h6
  · obtain ⟨a, b, c, rfl⟩ := List.length_eq_three.mp h3
    have la := hex_lower a (hds a (by simp))
    have lb := hex_lower b (hds b (by simp))
    have lc := hex_lower c (hds c (by simp))
    simp [normalizeColorL, htrim, hmap, startsWithL, matchesHex6, la, lb, lc]
  · have hstart : startsWithL ['#'] ('#' :: ds.map lowerC) = true := by
      simp [startsWithL]
    have hlen7 : ('#' :: ds.map lowerC).length ≠ 4 := by
      simp [h6]
    simp only [normalizeColorL, htrim, hmap, hstart, if_true, hlen7, if_false,
      matchesHex6]
    rw [Bool.and_eq_true]
    refine ⟨by simp [h6], ?_⟩
    rw [List.all_eq_true]
    intro x hx
    obtain ⟨y, hy, rfl⟩ := List.mem_map.mp hx
    exact hex_lower y (hds y hy)

theorem getLast?_app {A B : List Char} {c : Char} (h : B.getLast? = some c) :
    (A ++ B).getLast? = some c := by
  rw [← List.head?_reverse] at h ⊢
  rw [List.reverse_append]
  cases hb : B.reverse with
  | nil => rw [hb] at h; simp at h
  | cons x xs =>
    rw [hb] at h
    simpa using h

theorem getLast?_consApp {a : Char} {B : List Char} {c : Char} (h : B.getLast? = some c) :
    (a :: B).getLast? = some c := by
  rw [← List.singleton_append]
  exact getLast?_app h

theorem findRgb_of_rgbAt {s : List Char} {g : List Char × List Char × List Char}
    (fuel : Nat) (h : rgbAt s = some g) : findRgb fuel s = some g := by
  cases fuel with
  | zero => simpa [findRgb] using h
  | succ f => simp [findRgb, h]

theorem normalizeColor_rgb_case (w1 w2 w3 w4 w5 w6 d1 d2 d3 : List Char)
    (hw1 : ∀ c ∈ w1, isWsC c = true) (hw2 : ∀ c ∈ w2, isWsC c = true)
    (hw3 : ∀ c ∈ w3, isWsC c = true) (hw4 : ∀ c ∈ w4, isWsC c = true)
    (hw5 : ∀ c ∈ w5, isWsC c = true) (hw6 : ∀ c ∈ w6, isWsC c = true)
    (h1 : d1 ≠ []) (h2 : d2 ≠ []) (h3 : d3 ≠ [])
    (hd1 : ∀ c ∈ d1, c ∈ digitAlphabet) (hd2 : ∀ c ∈ d2, c ∈ digitAlphabet)
    (hd3 : ∀ c ∈ d3, c ∈ digitAlphabet)
    (hv1 : digitsVal d1 ≤ 255) (hv2 : digitsVal d2 ≤ 255) (hv3 : digitsVal d3 ≤ 255) :
    matchesHex6 (normalizeColorL (rgbToken w1 w2 w3 w4 w5 w6 d1 d2 d3)) = true := by
  have hhead : (rgbToken w1 w2 w3 w4 w5 w6 d1 d2 d3).head? = some 'r' := by
    simp [rgbToken, rgbOpenL]
  have hl0 : ([')'] : List Char).getLast? = some ')' := rfl
  have hlast : (rgbToken w1 w2 w3 w4 w5 w6 d1 d2 d3).getLast? = some ')' := by
    simp only [rgbToken]
    exact getLast?_app (getLast?_app (getLast?_app (getLast?_app (getLast?_consApp
      (getLast?_app (getLast?_app (getLast?_app (getLast?_consApp (getLast?_app
      (getLast?_app (getLast?_app hl0)))))))))))
  have htrim : trimL (rgbToken w1 w2 w3 w4 w5 w6 d1 d2 d3) =
      rgbToken w1 w2 w3 w4 w5 w6 d1 d2 d3 := by
    apply trimL_eq_self
    · intro c hc
      rw [hhead] at hc
      injection hc with hc
      subst hc
      decide
    · intro c hc
      rw [hlast] at hc
      injection hc with hc
      subst hc
      decide
  have m1 := map_lowerC_id (fun c hc => ws_lower_fix (hw1 c hc))
  have m2 := map_lowerC_id (fun c hc => ws_lower_fix (hw2 c hc))
  have m3 := map_lowerC_id (fun c hc => ws_lower_fix (hw3 c hc))
  have m4 := map_lowerC_id (fun c hc => ws_lower_fix (hw4 c hc))
  have m5 := map_lowerC_id (fun c hc => ws_lower_fix (hw5 c hc))
  have m6 := map_lowerC_id (fun c hc => ws_lower_fix (hw6 c hc))
  have n1 := map_lowerC_id (fun c hc => digit_lower_fix c (hd1 c hc))
  have n2 := map_lowerC_id (fun c hc => digit_lower_fix c (hd2 c hc))
  have n3 := map_lowerC_id (fun c hc => digit_lower_fix c (hd3 c hc))
  have lcComma : lowerC ',' = ',' := by decide
  have lcParen : lowerC ')' = ')' := by decide
  have lcOpen : List.map lowerC rgbOpenL = rgbOpenL := by decide
  have hmapS : List.map lowerC (rgbToken w1 w2 w3 w4 w5 w6 d1 d2 d3) =
      rgbToken w1 w2 w3 w4 w5 w6 d1 d2 d3 := by
    simp only [rgbToken, List.map_append, List.map_cons, List.map_nil, lcOpen,
      m1, m2, m3, m4, m5, m6, n1, n2, n3, lcComma, lcParen]
  have hns : startsWithL ['#'] (rgbToken w1 w2 w3 w4 w5 w6 d1 d2 d3) = false := by
    simp [startsWithL, rgbToken, rgbOpenL]
  have hrs : startsWithL rgbOpenL (rgbToken w1 w2 w3 w4 w5 w6 d1 d2 d3) = true := by
    simp [startsWithL, rgbToken, rgbOpenL]
  have hAt := rgbAt_token w1 w2 w3 w4 w5 w6 d1 d2 d3 hw1 hw2 hw3 hw4 hw5 hw6
    h1 h2 h3 hd1 hd2 hd3
  have hfind := @findRgb_of_rgbAt (rgbToken w1 w2 w3 w4 w5 w6 d1 d2 d3) (d1, d2, d3)
    (rgbToken w1 w2 w3 w4 w5 w6 d1 d2 d3).length (by simpa [rgbToken] using hAt)
  obtain ⟨L1, A1⟩ := hexPair hv1
  obtain ⟨L2, A2⟩ := hexPair hv2
  obtain ⟨L3, A3⟩ := hexPair hv3
  simp only [normalizeColorL, htrim, hmapS, hns, hrs, hfind, Bool.false_eq_true,
    if_false, if_true, matchesHex6]
  simp [List.all_append, A1, A2, A3, L1, L2, L3]

theorem startsWith_shape {pat t : List Char} (h : startsWithL pat t = true) :
    t = pat ++ t.drop pat.length := by
  unfold startsWithL at h
  rw [decide_eq_true_eq] at h
  conv_lhs => rw [← List.take_append_drop pat.length t]
  rw [h]

theorem normalizeColor_pass_case (s : List Char)
    (h : startsWithL rgbaOpenL ((trimL s).map lowerC) = true ∨
      startsWithL hslOpenL ((trimL s).map lowerC) = true) :
    normalizeColorL s = (trimL s).map lowerC := by
  rcases h with h | h
  · have ht := startsWith_shape h
    have c1 : startsWithL ['#'] ((trimL s).map lowerC) = false := by
      rw [ht]
      simp [startsWithL, rgbaOpenL]
    have c2 : startsWithL rgbOpenL ((trimL s).map lowerC) = false := by
      rw [ht]
      simp [startsWithL, rgbaOpenL, rgbOpenL]
    simp only [normalizeColorL, c1, c2, Bool.false_eq_true, if_false]
  · have ht := startsWith_shape h
    have c1 : startsWithL ['#'] ((trimL s).map lowerC) = false := by
      rw [ht]
      simp [startsWithL, hslOpenL]
    have c2 : startsWithL rgbOpenL ((trimL s).map lowerC) = false := by
      rw [ht]
      simp [startsWithL, hslOpenL, rgbOpenL]
    simp only [normalizeColorL, c1, c2, Bool.false_eq_true, if_false]

/-- C2: every token recognized as a hex color (3- or 6-digit, any case) or as
an rgb() color with channels 0-255 normalizes to the canonical pattern
#[0-9a-f]{6}; a 3-digit hex expands by digit doubling (#abc becomes #aabbcc),
rgb(0,123,255) becomes #007bff, and recognized rgba()/hsl() tokens pass
through lower-cased and trimmed, unconverted. -/
theorem normalizeColor_canonicalization :
    (∀ ds : List Char, (ds.length = 3 ∨ ds.length = 6) → (∀ c ∈ ds, c ∈ hexAlphabet) →
      matchesHex6 (normalizeColorL ('#' :: ds)) = true) ∧
    (∀ w1 w2 w3 w4 w5 w6 d1 d2 d3 : List Char,
      (∀ c ∈ w1, isWsC c = true) → (∀ c ∈ w2, isWsC c = true) →
      (∀ c ∈ w3, isWsC c = true) → (∀ c ∈ w4, isWsC c = true) →
      (∀ c ∈ w5, isWsC c = true) → (∀ c ∈ w6, isWsC c = true) →
      d1 ≠ [] → d2 ≠ [] → d3 ≠ [] →
      (∀ c ∈ d1, c ∈ digitAlphabet) → (∀ c ∈ d2, c ∈ digitAlphabet) →
      (∀ c ∈ d3, c ∈ digitAlphabet) →
      digitsVal d1 ≤ 255 → digitsVal d2 ≤ 255 → digitsVal d3 ≤ 255 →
      matchesHex6 (normalizeColorL (rgbToken w1 w2 w3 w4 w5 w6 d1 d2 d3)) = true) ∧
    normalizeColor "#abc" = "#aabbcc" ∧
    normalizeColor "rgb(0,123,255)" = "#007bff" ∧
    (∀ s : List Char,
      startsWithL rgbaOpenL ((trimL s).map lowerC) = true ∨
      startsWithL hslOpenL ((trimL s).map lowerC) = true →
      normalizeColorL s = (trimL s).map lowerC) :=
  ⟨normalizeColor_hex_case, normalizeColor_rgb_case, by decide, by decide,
    normalizeColor_pass_case⟩

/-- Closed instances of normalizeColor_canonicalization at concrete inputs. -/
theorem normalizeColor_canonicalization_witness :
    matchesHex6 (normalizeColorL ('#' :: ['A', 'b', '3'])) = true ∧
    matchesHex6 (normalizeColorL
      (rgbToken [' '] [] [] [' '] [] [] ['2', '5', '5'] ['0'] ['1', '2'])) = true ∧
    normalizeColorL (String.data "hsl(1, 2%, 3%)") =
      (trimL (String.data "hsl(1, 2%, 3%)")).map lowerC := by
  refine ⟨?_, ?_, ?_⟩
  · exact normalizeColor_canonicalization.1 ['A', 'b', '3'] (Or.inl rfl)
      (by intro c hc; fin_cases hc <;> decide)
  · exact normalizeColor_canonicalization.2.1 [' '] [] [] [' '] [] []
      ['2', '5', '5'] ['0'] ['1', '2']
      (by intro c hc; fin_cases hc <;> decide) (by simp) (by simp)
      (by intro c hc; fin_cases hc <;> decide) (by simp) (by simp)
      (by decide) (by decide) (by decide)
      (by intro c hc; fin_cases hc <;> decide)
      (by intro c hc; fin_cases hc <;> decide)
      (by intro c hc; fin_cases hc <;> decide)
      (by decide) (by decide) (by decide)
  · exact normalizeColor_canonicalization.2.2.2.2 (String.data "hsl(1, 2%, 3%)")
      (Or.inr (by decide))

/-! ## Claim C1: sanitizer idempotence -/

/-- C1 counterexample: neither sanitizer mode is idempotent. Deleting the inner
script block of this input reassembles a new script block, which only a second
pass removes, so applying the sanitizer twice differs from applying it once. -/
theorem sanitize_idempotence_cex :
    sanitizeContent (sanitizeContent "<sc<script></script>ript>x</script>") ≠
      sanitizeContent "<sc<script></script>ript>x</script>" ∧
    minimalSanitizeForExtraction
        (minimalSanitizeForExtraction "<sc<script></script>ript>x</script>") ≠
      minimalSanitizeForExtraction "<sc<script></script>ript>x</script>" := by
  constructor
  · decide
  · decide

/-- C1 amended: re-applying either sanitizer yields the same or a stricter
result - the second application's output is always a subsequence of the
first's (each pass only deletes characters) - but exact idempotence
sanitize(sanitize(x)) = sanitize(x) fails on adversarial inputs. -/
theorem sanitize_reapply_sublist (s : List Char) :
    List.Sublist (sanitizeContentL (sanitizeContentL s)) (sanitizeContentL s) ∧
    List.Sublist (minimalSanitizeL (minimalSanitizeL s)) (minimalSanitizeL s) :=
  ⟨sanitizeContentL_sublist _, minimalSanitizeL_sublist _⟩

/-! ## Claim C7: scheme stripping in strict mode -/

/-- C7 counterexample: the strict sanitizer's scheme regex lists only
javascript and data, so a vbscript:-scheme href survives verbatim. -/
theorem sanitize_vbscript_survives_cex :
    sanitizeContent "<a href=\"vbscript:alert(1)\">x</a>" =
      "<a href=\"vbscript:alert(1)\">x</a>" := by decide

/-- C3: /icon-32.png and /icon-192.png land in the same deduplication group,
but the comparator returns 0 on them in both argument orders - the bSize
computation falls back to the absent second capture group instead of the
first, making bSize NaN, so the intended larger-size-wins comparison
degenerates to a tie - and the stable sort then keeps input order: the
32-pixel candidate is selected, not the 192-pixel one the spec promises. -/
theorem dedup_sizeRanking_eval :
    logoKey parseAbsUrl icon32 = logoKey parseAbsUrl icon192 ∧
    cmpLogos icon32 icon192 = 0 ∧
    cmpLogos icon192 icon32 = 0 ∧
    deduplicateLogos parseAbsUrl [icon32, icon192] = [icon32] := by
  refine ⟨by decide, by decide, by decide, by decide⟩

/-! ## Claim C4: one representative per group -/

theorem pushGroup_cons_eq {k : List Char} {g : List BrandAsset} {rest : Groups}
    {l : BrandAsset} : pushGroup ((k, g) :: rest) k l = (k, g ++ [l]) :: rest := by
  simp [pushGroup]

theorem pushGroup_cons_ne {k' k : List Char} {g : List BrandAsset} {rest : Groups}
    {l : BrandAsset} (h : k' ≠ k) :
    pushGroup ((k', g) :: rest) k l = (k', g) :: pushGroup rest k l := by
  simp [pushGroup, h]

theorem setGroup_cons_eq {k : List Char} {g v : List BrandAsset} {rest : Groups} :
    setGroup ((k, g) :: rest) k v = (k, v) :: rest := by
  simp [setGroup]

theorem setGroup_cons_ne {k' k : List Char} {g : List BrandAsset} {rest : Groups}
    {v : List BrandAsset} (h : k' ≠ k) :
    setGroup ((k', g) :: rest) k v = (k', g) :: setGroup rest k v := by
  simp [setGroup, h]

theorem pushGroup_keys (gs : Groups) (k : List Char) (l : BrandAsset) :
    (pushGroup gs k l).map Prod.fst =
      if k ∈ gs.map Prod.fst then gs.map Prod.fst else gs.map Prod.fst ++ [k] := by
  induction gs with
  | nil => simp [pushGroup]
  | cons p rest ih =>
    obtain ⟨k', g⟩ := p
    by_cases hk : k' = k
    · subst hk
      simp [pushGroup_cons_eq]
    · rw [pushGroup_cons_ne hk]
      simp only [List.map_cons, List.mem_cons]
      rw [ih]
      by_cases hm : k ∈ rest.map Prod.fst
      · simp [hm, Ne.symm hk]
      · simp [hm, Ne.symm hk]

theorem setGroup_keys (gs : Groups) (k : List Char) (v : List BrandAsset) :
    (setGroup gs k v).map Prod.fst =
      if k ∈ gs.map Prod.fst then gs.map Prod.fst else gs.map Prod.fst ++ [k] := by
  induction gs with
  | nil => simp [setGroup]
  | cons p rest ih =>
    obtain ⟨k', g⟩ := p
    by_cases hk : k' = k
    · subst hk
      simp [setGroup_cons_eq]
    · rw [setGroup_cons_ne hk]
      simp only [List.map_cons, List.mem_cons]
      rw [ih]
      by_cases hm : k ∈ rest.map Prod.fst
      · simp [hm, Ne.symm hk]
      · simp [hm, Ne.symm hk]

theorem pushGroup_cases {gs : Groups} {k : List Char} {l : BrandAsset} :
    ∀ p ∈ pushGroup gs k l,
      p ∈ gs ∨ (∃ g, (k, g) ∈ gs ∧ p = (k, g ++ [l])) ∨ p = (k, [l]) := by
  induction gs with
  | nil =>
    intro p hp
    simp only [pushGroup, List.mem_singleton] at hp
    exact Or.inr (Or.inr hp)
  | cons q rest ih =>
    obtain ⟨k', g⟩ := q
    intro p hp
    by_cases hk : k' = k
    · subst hk
      rw [pushGroup_cons_eq] at hp
      rcases List.mem_cons.mp hp with rfl | hp
      · exact Or.inr (Or.inl ⟨g, List.mem_cons_self _ _, rfl⟩)
      · exact Or.inl (List.mem_cons_of_mem _ hp)
    · rw [pushGroup_cons_ne hk] at hp
      rcases List.mem_cons.mp hp with rfl | hp
      · exact Or.inl (List.mem_cons_self _ _)
      · rcases ih p hp with h | ⟨g', hg', rfl⟩ | rfl
        · exact Or.inl (List.mem_cons_of_mem _ h)
        · exact Or.inr (Or.inl ⟨g', List.mem_cons_of_mem _ hg', rfl⟩)
        · exact Or.inr (Or.inr rfl)

theorem setGroup_cases {gs : Groups} {k : List Char} {v : List BrandAsset} :
    ∀ p ∈ setGroup gs k v, p ∈ gs ∨ p = (k, v) := by
  induction gs with
  | nil =>
    intro p hp
    simp only [setGroup, List.mem_singleton] at hp
    exact Or.inr hp
  | cons q rest ih =>
    obtain ⟨k', g⟩ := q
    intro p hp
    by_cases hk : k' = k
    · subst hk
      rw [setGroup_cons_eq] at hp
      rcases List.mem_cons.mp hp with rfl | hp
      · exact Or.inr rfl
      · exact Or.inl (List.mem_cons_of_mem _ hp)
    · rw [setGroup_cons_ne hk] at hp
      rcases List.mem_cons.mp hp with rfl | hp
      · exact Or.inl (List.mem_cons_self _ _)
      · rcases ih p hp with h | h
        · exact Or.inl (List.mem_cons_of_mem _ h)
        · exact Or.inr h

theorem stepG_eq_skip {parse : List Char → Option UrlParts} {gs : Groups}
    {l : BrandAsset} (h : l.url = none) : stepG parse gs l = gs := by
  simp [stepG, h]

theorem stepG_eq_push {parse : List Char → Option UrlParts} {gs : Groups}
    {l : BrandAsset} {u : List Char} {parts : UrlParts} (h : l.url = some u)
    (h2 : parse u = some parts) :
    stepG parse gs l = pushGroup gs (groupKeyOf parts) l := by
  simp [stepG, h, h2]

theorem stepG_eq_set {parse : List Char → Option UrlParts} {gs : Groups}
    {l : BrandAsset} {u : List Char} (h : l.url = some u) (h2 : parse u = none) :
    stepG parse gs l = setGroup gs (invalidPre ++ u) [l] := by
  simp [stepG, h, h2]

theorem keys_after (gs : Groups) (k k' : List Char) (ks : List (List Char))
    (h : ks = if k ∈ gs.map Prod.fst then gs.map Prod.fst else gs.map Prod.fst ++ [k])
    (hn : (gs.map Prod.fst).Nodup) : ks.Nodup ∧ (k ∈ ks) ∧
      (k' ∈ gs.map Prod.fst → k' ∈ ks) := by
  subst h
  by_cases hm : k ∈ gs.map Prod.fst
  · simp only [if_pos hm]
    exact ⟨hn, hm, fun h => h⟩
  · simp only [if_neg hm]
    refine ⟨?_, by simp, fun h => by simp [h]⟩
    rw [List.nodup_append]
    exact ⟨hn, List.nodup_singleton k, by simpa using hm⟩

theorem stepG_inv {parse : List Char → Option UrlParts} {logos : List BrandAsset}
    {gs : Groups} {l : BrandAsset} (hinv : invGroups parse logos gs)
    (hl : l ∈ logos) : invGroups parse logos (stepG parse gs l) := by
  obtain ⟨inv1, inv2, inv3, inv4⟩ := hinv
  cases hu : l.url with
  | none => rw [stepG_eq_skip hu]; exact ⟨inv1, inv2, inv3, inv4⟩
  | some u =>
    cases hp : parse u with
    | some parts =>
      rw [stepG_eq_push hu hp]
      have hkey : logoKey parse l = some (groupKeyOf parts) := by
        simp [logoKey, hu, hp]
      refine ⟨?_, ?_, ?_, ?_⟩
      · intro p hmem x hx
        rcases pushGroup_cases p hmem with h | ⟨g, hg, rfl⟩ | rfl
        · exact inv1 p h x hx
        · rcases List.mem_append.mp hx with hx | hx
          · exact inv1 (_, g) hg x hx
          · rw [List.mem_singleton.mp hx]
            exact hkey
        · rw [List.mem_singleton.mp hx]
          exact hkey
      · rw [pushGroup_keys]
        exact (keys_after gs _ [] _ rfl inv2).1
      · intro p hmem
        rcases pushGroup_cases p hmem with h | ⟨g, _, rfl⟩ | rfl
        · exact inv3 p h
        · simp
        · simp
      · intro p hmem x hx
        rcases pushGroup_cases p hmem with h | ⟨g, hg, rfl⟩ | rfl
        · exact inv4 p h x hx
        · rcases List.mem_append.mp hx with hx | hx
          · exact inv4 (_, g) hg x hx
          · rw [List.mem_singleton.mp hx]; exact hl
        · rw [List.mem_singleton.mp hx]; exact hl
    | none =>
      rw [stepG_eq_set hu hp]
      have hkey : logoKey parse l = some (invalidPre ++ u) := by
        simp [logoKey, hu, hp]
      refine ⟨?_, ?_, ?_, ?_⟩
      · intro p hmem x hx
        rcases setGroup_cases p hmem with h | rfl
        · exact inv1 p h x hx
        · rw [List.mem_singleton.mp hx]
          exact hkey
      · rw [setGroup_keys]
        exact (keys_after gs _ [] _ rfl inv2).1
      · intro p hmem
        rcases setGroup_cases p hmem with h | rfl
        · exact inv3 p h
        · simp
      · intro p hmem x hx
        rcases setGroup_cases p hmem with h | rfl
        · exact inv4 p h x hx
        · rw [List.mem_singleton.mp hx]; exact hl

theorem stepG_keys_mono {parse : List Char → Option UrlParts} {gs : Groups}
    {l : BrandAsset} {k : List Char} (h : k ∈ gs.map Prod.fst) :
    k ∈ (stepG parse gs l).map Prod.fst := by
  cases hu : l.url with
  | none => rw [stepG_eq_skip hu]; exact h
  | some u =>
    cases hp : parse u with
    | some parts =>
      rw [stepG_eq_push hu hp, pushGroup_keys]
      split
      · exact h
      · simp [h]
    | none =>
      rw [stepG_eq_set hu hp, setGroup_keys]
      split
      · exact h
      · simp [h]

theorem stepG_key_added {parse : List Char → Option UrlParts} {gs : Groups}
    {l : BrandAsset} {k : List Char} (h : logoKey parse l = some k) :
    k ∈ (stepG parse gs l).map Prod.fst := by
  cases hu : l.url with
  | none => simp [logoKey, hu] at h
  | some u =>
    cases hp : parse u with
    | some parts =>
      have hk : k = groupKeyOf parts := by
        simp only [logoKey, hu, hp, Option.some.injEq] at h
        exact h.symm
      subst hk
      rw [stepG_eq_push hu hp, pushGroup_keys]
      by_cases hm : groupKeyOf parts ∈ gs.map Prod.fst
      · simpa [hm] using hm
      · simp [hm]
    | none =>
      have hk : k = invalidPre ++ u := by
        simp only [logoKey, hu, hp, Option.some.injEq] at h
        exact h.symm
      subst hk
      rw [stepG_eq_set hu hp, setGroup_keys]
      by_cases hm : invalidPre ++ u ∈ gs.map Prod.fst
      · simpa [hm] using hm
      · simp [hm]

theorem foldl_stepG_inv {parse : List Char → Option UrlParts} {logos : List BrandAsset} :
    ∀ (ls : List BrandAsset) (gs : Groups), invGroups parse logos gs →
      (∀ l ∈ ls, l ∈ logos) → invGroups parse logos (ls.foldl (stepG parse) gs) := by
  intro ls
  induction ls with
  | nil => intro gs h _; exact h
  | cons l rest ih =>
    intro gs h hls
    simp only [List.foldl_cons]
    exact ih _ (stepG_inv h (hls l (List.mem_cons_self l rest)))
      (fun x hx => hls x (List.mem_cons_of_mem l hx))

theorem foldl_stepG_key {parse : List Char → Option UrlParts} {k : List Char} :
    ∀ (ls : List BrandAsset) (gs : Groups),
      ((∃ l ∈ ls, logoKey parse l = some k) ∨ k ∈ gs.map Prod.fst) →
      k ∈ (ls.foldl (stepG parse) gs).map Prod.fst := by
  intro ls
  induction ls with
  | nil =>
    intro gs h
    rcases h with ⟨l, hl, _⟩ | h
    · simp at hl
    · exact h
  | cons l rest ih =>
    intro gs h
    simp only [List.foldl_cons]
    apply ih
    rcases h with ⟨x, hx, hk⟩ | h
    · rcases List.mem_cons.mp hx with rfl | hx'
      · exact Or.inr (stepG_key_added hk)
      · exact Or.inl ⟨x, hx', hk⟩
    · exact Or.inr (stepG_keys_mono h)

theorem insertStable_perm (cmp : BrandAsset → BrandAsset → Int) (x : BrandAsset) :
    ∀ l, (insertStable cmp x l).Perm (x :: l) := by
  intro l
  induction l with
  | nil => exact List.Perm.refl _
  | cons h t ih =>
    unfold insertStable
    by_cases hc : cmp x h < 0
    · rw [if_pos hc]
    · rw [if_neg hc]
      exact (ih.cons h).trans (List.Perm.swap x h t)

theorem jsSortStable_perm_gen (cmp : BrandAsset → BrandAsset → Int) :
    ∀ (ls acc : List BrandAsset),
      (ls.foldl (fun a x => insertStable cmp x a) acc).Perm (acc ++ ls) := by
  intro ls
  induction ls with
  | nil => intro acc; simp
  | cons x rest ih =>
    intro acc
    simp only [List.foldl_cons]
    have h1 := ih (insertStable cmp x acc)
    have h2 : (insertStable cmp x acc ++ rest).Perm ((x :: acc) ++ rest) :=
      (insertStable_perm cmp x acc).append_right rest
    have h3 : ((x :: acc) ++ rest) = x :: (acc ++ rest) := rfl
    exact (h1.trans h2).trans (h3 ▸ List.perm_middle.symm)

theorem jsSortStable_perm (cmp : BrandAsset → BrandAsset → Int)
    (l : List BrandAsset) : (jsSortStable cmp l).Perm l := by
  simpa using jsSortStable_perm_gen cmp l []

theorem bestOf_mem {cmp : BrandAsset → BrandAsset → Int} :
    ∀ {g : List BrandAsset}, g ≠ [] → bestOf cmp g ∈ g := by
  intro g hne
  match g with
  | [l] => simp [bestOf]
  | l1 :: l2 :: t =>
    have hperm := jsSortStable_perm cmp (l1 :: l2 :: t)
    have hlen := hperm.length_eq
    cases hs : jsSortStable cmp (l1 :: l2 :: t) with
    | nil => rw [hs] at hlen; simp at hlen
    | cons a as =>
      have hmem : a ∈ jsSortStable cmp (l1 :: l2 :: t) := by
        rw [hs]; exact List.mem_cons_self a as
      have : bestOf cmp (l1 :: l2 :: t) = a := by
        show (jsSortStable cmp (l1 :: l2 :: t)).headD defaultAsset = a
        rw [hs]; rfl
      rw [this]
      exact hperm.mem_iff.mp hmem

theorem countP_eq_one_keys {ks : List (List Char)} {k : List Char}
    (hn : ks.Nodup) (hm : k ∈ ks) :
    ks.countP (fun x => decide (x = k)) = 1 := by
  induction ks with
  | nil => simp at hm
  | cons a as ih =>
    rw [List.countP_cons]
    rcases List.mem_cons.mp hm with heq | hm'
    · subst heq
      have hnot : k ∉ as := (List.nodup_cons.mp hn).1
      have hzero : as.countP (fun x => decide (x = k)) = 0 := by
        rw [List.countP_eq_zero]
        intro x hx
        simp only [decide_eq_true_eq]
        rintro rfl
        exact hnot hx
      simp [hzero]
    · have hne : a ≠ k := by
        rintro rfl
        exact (List.nodup_cons.mp hn).1 hm'
      have := ih (List.nodup_cons.mp hn).2 hm'
      simp [this, hne]

theorem parsedKey_to_logoKey {parse : List Char → Option UrlParts}
    {l : BrandAsset} {k : List Char} (h : parsedKey parse l = some k) :
    logoKey parse l = some k := by
  cases hu : l.url with
  | none => simp [parsedKey, hu] at h
  | some u =>
    cases hp : parse u with
    | none => simp [parsedKey, hu, hp] at h
    | some parts =>
      simp only [parsedKey, hu, hp, Option.map_some'] at h
      simp only [logoKey, hu, hp]
      exact h

/-- C4 counterexample: colA and colB share the (hostname, normalizedFilename)
grouping key, yet the deduplicated output contains zero candidates of that
group - the unparsable candidate colC is keyed by the raw string
"invalid:" + "logopng", which collides with the parsable key
"invalid" + ":" + "logopng", and the Map.set of the unparsable branch
replaces the bucket holding colA and colB. -/
theorem dedup_cardinality_cex :
    parsedKey parseAbsUrl colA = some (String.data "invalid:logopng") ∧
    parsedKey parseAbsUrl colB = some (String.data "invalid:logopng") ∧
    colA ≠ colB ∧
    deduplicateLogos parseAbsUrl [colA, colB, colC] = [colC] ∧
    (deduplicateLogos parseAbsUrl [colA, colB, colC]).countP
      (fun l => decide (parsedKey parseAbsUrl l = some (String.data "invalid:logopng"))) = 0 := by
  refine ⟨by decide, by decide, by decide, by decide, by decide⟩

/-- C4 amended: whenever some candidate carries the parsable grouping key k
(hostname + ":" + normalizedFilename) and no unparsable candidate's raw
string collides with k under the "invalid:" prefix, the deduplicated output
contains exactly one candidate whose grouping key is k, and that candidate
comes from the input list. Unparsable candidates are keyed by
"invalid:" + raw string; a later candidate with the same key replaces the
earlier bucket rather than merging with it. -/
theorem dedup_one_per_group (parse : List Char → Option UrlParts)
    (logos : List BrandAsset) (k : List Char)
    (hex : ∃ a ∈ logos, parsedKey parse a = some k)
    (hcol : ∀ l ∈ logos, ∀ u, l.url = some u → parse u = none → invalidPre ++ u ≠ k) :
    ((deduplicateLogos parse logos).countP
      (fun l => decide (parsedKey parse l = some k))) = 1 ∧
    ∀ l ∈ deduplicateLogos parse logos, parsedKey parse l = some k → l ∈ logos := by
  have hinv : invGroups parse logos (buildGroups parse logos) := by
    apply foldl_stepG_inv logos []
    · exact ⟨by simp, by simp, by simp, by simp⟩
    · exact fun l h => h
  obtain ⟨inv1, inv2, inv3, inv4⟩ := hinv
  obtain ⟨a, ha, hak⟩ := hex
  have hpres : k ∈ (buildGroups parse logos).map Prod.fst :=
    foldl_stepG_key logos [] (Or.inl ⟨a, ha, parsedKey_to_logoKey hak⟩)
  have hpoint : ∀ p ∈ buildGroups parse logos,
      (parsedKey parse (bestOf cmpLogos p.2) = some k ↔ p.1 = k) := by
    intro p hp
    have hbm : bestOf cmpLogos p.2 ∈ p.2 := bestOf_mem (inv3 p hp)
    have hbk : logoKey parse (bestOf cmpLogos p.2) = some p.1 := inv1 p hp _ hbm
    have hbl : bestOf cmpLogos p.2 ∈ logos := inv4 p hp _ hbm
    constructor
    · intro h
      have := parsedKey_to_logoKey h
      rw [hbk] at this
      injection this
    · intro h
      subst h
      cases hu : (bestOf cmpLogos p.2).url with
      | none => simp [logoKey, hu] at hbk
      | some u =>
        cases hpu : parse u with
        | some parts =>
          simp only [logoKey, hu, hpu] at hbk
          simp only [parsedKey, hu, hpu, Option.map_some']
          exact hbk
        | none =>
          simp only [logoKey, hu, hpu, Option.some.injEq] at hbk
          exact absurd hbk (hcol _ hbl u hu hpu)
  constructor
  · unfold deduplicateLogos
    rw [List.countP_map]
    have step1 : (buildGroups parse logos).countP
        ((fun l => decide (parsedKey parse l = some k)) ∘ (fun p => bestOf cmpLogos p.2)) =
        (buildGroups parse logos).countP (fun p => decide (p.1 = k)) := by
      apply List.countP_congr
      intro p hp
      simp only [Function.comp_apply, decide_eq_true_eq]
      exact hpoint p hp
    rw [step1]
    have step2 : (buildGroups parse logos).countP (fun p => decide (p.1 = k)) =
        ((buildGroups parse logos).map Prod.fst).countP (fun x => decide (x = k)) := by
      rw [List.countP_map]
      rfl
    rw [step2]
    exact countP_eq_one_keys inv2 hpres
  · intro l hl hkl
    unfold deduplicateLogos at hl
    obtain ⟨p, hp, rfl⟩ := List.mem_map.mp hl
    exact inv4 p hp _ (bestOf_mem (inv3 p hp))

/-- Closed instance of dedup_one_per_group at a concrete input. -/
theorem dedup_one_per_group_witness :
    ((deduplicateLogos parseAbsUrl [icon32, icon192]).countP
      (fun l => decide (parsedKey parseAbsUrl l =
        some (String.data "acme.test:png")))) = 1 ∧
    ∀ l ∈ deduplicateLogos parseAbsUrl [icon32, icon192],
      parsedKey parseAbsUrl l = some (String.data "acme.test:png") →
        l ∈ [icon32, icon192] := by
  apply dedup_one_per_group parseAbsUrl [icon32, icon192] (String.data "acme.test:png")
  · exact ⟨icon32, by simp, by decide⟩
  · intro l hl u hu hp
    rcases List.mem_cons.mp hl with rfl | hl
    · rw [show icon32.url = some (String.data "https://acme.test/icon-32.png") from rfl] at hu
      injection hu with hu
      subst hu
      exact absurd hp (by decide)
    · rcases List.mem_cons.mp hl with rfl | hl
      · rw [show icon192.url = some (String.data "https://acme.test/icon-192.png") from rfl] at hu
        injection hu with hu
        subst hu
        exact absurd hp (by decide)
      · simp at hl

/-! ## Claim C5: generic font exclusion -/

theorem foldl_pres {α A : Type} (Inv : A → Prop) (step : A → α → A)
    (h : ∀ a x, Inv a → Inv (step a x)) :
    ∀ (ls : List α) (a : A), Inv a → Inv (ls.foldl step a) := by
  intro ls
  induction ls with
  | nil => intro a h0; exact h0
  | cons x rest ih =>
    intro a h0
    exact ih _ (h a x h0)

theorem addFont_pres {src : List Char} {url : Option (List Char)} {acc : FontAcc}
    {name : List Char} (h : fontInv acc)
    (hnew : fontOk { kind := fontKL, url := url, name := some name,
                     source := some src }) :
    fontInv (addFont src url acc name) := by
  unfold addFont
  split
  · exact h
  · intro f hf
    rcases List.mem_append.mp hf with hf | hf
    · exact h f hf
    · rw [List.mem_singleton.mp hf]
      exact hnew

theorem gfamStep_pres {url : UrlParts} {acc : FontAcc} {family : List Char}
    (h : fontInv acc) : fontInv (gfamStep url acc family) := by
  simp only [gfamStep]
  split
  · exact h
  · exact addFont_pres h (Or.inl rfl)

theorem ffFontStep_pres {acc : FontAcc} {f : List Char} (h : fontInv acc) :
    fontInv (ffFontStep acc f) := by
  simp only [ffFontStep]
  split
  · rename_i hguard
    rw [Bool.and_eq_true, Bool.not_eq_true'] at hguard
    apply addFont_pres h
    refine Or.inr (fun n hn => ?_)
    injection hn with hn
    subst hn
    intro hmem
    have : isGenericFont ((trimL f).filter (fun c => !isQuoteC c)) = true := by
      unfold isGenericFont
      simp only [decide_eq_true_eq]
      unfold cssGeneric7 at hmem
      unfold genericFonts
      simp only [List.mem_cons] at hmem ⊢
      tauto
    rw [this] at hguard
    exact absurd hguard.1 (by simp)
  · exact h

theorem ffMatchStep_pres {acc : FontAcc} {m : List Char} (h : fontInv acc) :
    fontInv (ffMatchStep acc m) :=
  foldl_pres fontInv ffFontStep (fun a x ha => ffFontStep_pres ha) _ acc h

theorem extractFFCSS_pres {css : List Char} {acc : FontAcc} (h : fontInv acc) :
    fontInv (extractFFCSS css acc) :=
  foldl_pres fontInv ffMatchStep (fun a x ha => ffMatchStep_pres ha) _ acc h

theorem gfontStep_pres {base : List Char} {acc : FontAcc} {el : LinkEl}
    (h : fontInv acc) : fontInv (gfontStep base acc el) := by
  cases hh : el.href with
  | none => simp only [gfontStep, hh]; exact h
  | some href =>
    simp only [gfontStep, hh]
    split
    · split
      · exact h
      · split
        · split
          · exact h
          · exact foldl_pres fontInv (gfamStep _)
              (fun a x ha => gfamStep_pres ha) _ acc h
        · exact h
    · exact h

/-- C5 counterexample: the font extraction emits the generic keyword
sans-serif as a standalone candidate (through the font-service link path,
which never applies the generic filter) and also emits the platform alias
BlinkMacSystemFont (the filter lowercases the candidate but compares with
the mixed-case list entry, which can never match). -/
theorem fonts_generic_cex :
    extractFontsSecurely c5doc (String.data "https://acme.test") =
      [{ kind := fontKL,
         url := some (String.data "https://fonts.googleapis.com/css?family=sans-serif"),
         name := some (String.data "sans-serif"), source := some linkSrcL },
       { kind := fontKL, name := some (String.data "BlinkMacSystemFont"),
         source := some cssSrcL }] := by decide

/-- C5 amended: candidates produced from font-family declarations in style
text are never one of the seven lowercase generic family keywords (serif,
sans-serif, monospace, cursive, fantasy, system-ui, -apple-system);
candidates from font-service link references are not filtered at all, and
the platform alias BlinkMacSystemFont escapes the filter. -/
theorem fonts_generic_exclusion (doc : Doc) (base : List Char) :
    ∀ f ∈ extractFontsSecurely doc base,
      f.source = some linkSrcL ∨
        ∀ n, f.name = some n → ¬((n.map lowerC) ∈ cssGeneric7) := by
  intro f hf
  have h1 : fontInv (doc.links.foldl (gfontStep base) ([], [])) :=
    foldl_pres fontInv (gfontStep base) (fun a x ha => gfontStep_pres ha)
      doc.links ([], []) (by intro f hf; simp at hf)
  have h2 := foldl_pres fontInv (fun a css => extractFFCSS css a)
    (fun a x ha => extractFFCSS_pres ha) doc.styleBlocks _ h1
  have h3 := foldl_pres fontInv (fun a st => extractFFCSS st a)
    (fun a x ha => extractFFCSS_pres ha)
    (doc.styleAttrs.filter (fun st => containsSub ffL st)) _ h2
  exact h3 f hf

/-- Closed instance of fonts_generic_exclusion at a concrete document. -/
theorem fonts_generic_exclusion_witness :
    ({ kind := fontKL, name := some (String.data "Arial"),
       source := some cssSrcL } : BrandAsset).source = some linkSrcL ∨
      ∀ n, ({ kind := fontKL, name := some (String.data "Arial"),
              source := some cssSrcL } : BrandAsset).name = some n →
        ¬((n.map lowerC) ∈ cssGeneric7) :=
  fonts_generic_exclusion { styleBlocks := [String.data "p{font-family:Arial}"] }
    (String.data "https://acme.test") _ (by decide)

theorem startsWith_http (rest : List Char) :
    startsWithL httpPreL (httpL ++ ':' :: '/' :: '/' :: rest) = true := rfl

theorem startsWith_https (rest : List Char) :
    startsWithL httpsPreL (httpsL ++ ':' :: '/' :: '/' :: rest) = true := rfl

theorem startsWith_data (rest : List Char) :
    startsWithL dataPreL (dataPreL ++ rest) = true := by
  unfold startsWithL
  rw [List.take_left]
  simp

theorem hrefOf_absolute {u : UrlParts} (h : (u.scheme = httpL || u.scheme = httpsL) = true) :
    startsWithL httpPreL (hrefOf u) = true ∨ startsWithL httpsPreL (hrefOf u) = true := by
  rw [Bool.or_eq_true, decide_eq_true_eq, decide_eq_true_eq] at h
  unfold hrefOf
  rcases h with h | h
  · rw [h]
    exact Or.inl (startsWith_http _)
  · rw [h]
    exact Or.inr (startsWith_https _)

theorem iconLinkStep_pres {base : List Char} {acc : List BrandAsset} {el : LinkEl}
    (h : ∀ l ∈ acc, absoluteOut l) : ∀ l ∈ iconLinkStep base acc el, absoluteOut l := by
  cases hr : el.rel with
  | none => simp only [iconLinkStep, hr]; exact h
  | some r =>
    cases hh : el.href with
    | none =>
      simp only [iconLinkStep, hr, hh]
      split <;> exact h
    | some href =>
      cases hres : resolveUrlM href base with
      | none =>
        simp only [iconLinkStep, hr, hh, hres]
        split <;> exact h
      | some url =>
        simp only [iconLinkStep, hr, hh, hres]
        split
        · split
          · rename_i hsch
            intro l hl
            rcases List.mem_append.mp hl with hl | hl
            · exact h l hl
            · rw [List.mem_singleton.mp hl]
              refine ⟨hrefOf url, rfl, ?_⟩
              rcases hrefOf_absolute hsch with h1 | h1
              · exact Or.inl h1
              · exact Or.inr (Or.inl h1)
          · exact h
        · exact h

theorem imgLogoStep_pres {base : List Char} {acc : List BrandAsset} {el : ImgEl}
    (h : ∀ l ∈ acc, absoluteOut l) : ∀ l ∈ imgLogoStep base acc el, absoluteOut l := by
  cases hs : el.src with
  | none => simp only [imgLogoStep, hs]; exact h
  | some src =>
    cases hres : resolveUrlM src base with
    | none => simp only [imgLogoStep, hs, hres]; exact h
    | some url =>
      simp only [imgLogoStep, hs, hres]
      split
      · rename_i hsch
        split
        · intro l hl
          rcases List.mem_append.mp hl with hl | hl
          · exact h l hl
          · rw [List.mem_singleton.mp hl]
            refine ⟨hrefOf url, rfl, ?_⟩
            rcases hrefOf_absolute hsch with h1 | h1
            · exact Or.inl h1
            · exact Or.inr (Or.inl h1)
        · exact h
      · exact h

theorem svgLogoStep_pres {acc : List BrandAsset} {el : SvgEl}
    (h : ∀ l ∈ acc, absoluteOut l) : ∀ l ∈ svgLogoStep acc el, absoluteOut l := by
  unfold svgLogoStep
  split
  · split
    · exact h
    · intro l hl
      rcases List.mem_append.mp hl with hl | hl
      · exact h l hl
      · rw [List.mem_singleton.mp hl]
        exact ⟨dataPreL ++ base64 el.outer, rfl,
          Or.inr (Or.inr (startsWith_data _))⟩
  · exact h

/-- C6 amended: every logo candidate produced by the secure extractor holds
either an http(s) URL resolved against the base (the serialization of a
successfully parsed resolution that passed the protocol check) or a
self-contained data: URL for an inline SVG; a candidate whose URL fails to
resolve is dropped. The legacy regex-based extractor, in contrast, stores
the raw relative string when resolution fails (see the counterexample). -/
theorem secure_logos_absolute (doc : Doc) (base : List Char) :
    ∀ l ∈ extractLogosSecurely doc base, absoluteOut l := by
  unfold extractLogosSecurely
  have h1 := foldl_pres (fun acc => ∀ l ∈ acc, absoluteOut l) (iconLinkStep base)
    (fun a x ha => iconLinkStep_pres ha) doc.links [] (by intro l hl; simp at hl)
  have h2 := foldl_pres (fun acc => ∀ l ∈ acc, absoluteOut l) (imgLogoStep base)
    (fun a x ha => imgLogoStep_pres ha) doc.imgs _ h1
  exact foldl_pres (fun acc => ∀ l ∈ acc, absoluteOut l) svgLogoStep
    (fun a x ha => svgLogoStep_pres ha) doc.svgs _ h2

/-- Closed instance of secure_logos_absolute at a concrete document. -/
theorem secure_logos_absolute_witness :
    absoluteOut { kind := logoKL,
                  url := some (String.data "https://acme.test/favicon.ico"),
                  alt := some faviconAltL,
                  source := some linkSrcL } :=
  secure_logos_absolute
    { links := [{ rel := some (String.data "icon"),
                  href := some (String.data "/favicon.ico") }] }
    (String.data "https://acme.test") _ (by decide)

/-- C6 counterexample: the legacy pipeline stores a relative URL. The
background-image reference //[ fails to resolve against the base (its
authority is invalid, so new URL throws), yet the catch branch of
resolveUrl returns the raw string and the candidate is stored with the
scheme-less url "//[" instead of being dropped. -/
theorem legacy_url_relative_cex :
    (parseHtmlForAssetsOld (String.data "background-image: url(//[)")
        (String.data "https://acme.test")).illustrations =
      [{ kind := illusKL, url := some (String.data "//["),
         source := some cssSrcL }] ∧
    hasScheme (String.data "//[") = false ∧
    startsWithL httpPreL (String.data "//[") = false ∧
    startsWithL httpsPreL (String.data "//[") = false := by decide

theorem kvHonest_get (st : KVStore) (k : List Char) :
    kvHonest.get st k = Except.ok (kvGetL st k) := rfl

theorem kvHonest_put (st : KVStore) (k v : List Char) (ttl : Nat) :
    kvHonest.put st k v ttl = Except.ok (kvSet st k v ttl) := rfl

theorem kvGet_set_self (st : KVStore) (k v : List Char) (ttl : Nat) :
    kvGetL (kvSet st k v ttl) k = some v := by
  induction st with
  | nil => simp [kvSet, kvGetL]
  | cons e rest ih =>
    by_cases h : e.key = k
    · simp [kvSet, kvGetL, h]
    · simp [kvSet, kvGetL, h, ih]

set_option maxRecDepth 8000 in
/-- toString/parseInt round on the counter values the limiter stores. -/
theorem decRoundtrip_fin :
    ∀ v : Fin 101, natToDec (v : Nat) ≠ [] ∧
      parseIntDec (natToDec (v : Nat)) = some ((v : Nat) : Int) := by decide

theorem storedCount_after_set (st : KVStore) (k : List Char) {n : Nat}
    (hn : n ≤ 100) (ttl : Nat) :
    storedCount (kvSet st k (natToDec n) ttl) k = some ((n : Nat) : Int) := by
  have h := decRoundtrip_fin ⟨n, by omega⟩
  simp only [storedCount, kvGet_set_self, countOf]
  rw [if_neg h.1]
  exact h.2

theorem intToDec_coe (n : Nat) : intToDec ((n : Nat) : Int) = natToDec n := by
  simp [intToDec]

theorem check_honest_pass {ip : List Char} {now : Nat} {st : KVStore} {c : Nat}
    (hc : storedCount st (rateKey ip (winOf now)) = some ((c : Nat) : Int))
    (hlt : c < 100) :
    checkRateLimit kvHonest ip now st =
      ({ limited := false, remaining := some (100 - ((c : Int) + 1)),
         resetTime := winOf now + WINDOW_SIZE },
       kvSet st (rateKey ip (winOf now)) (natToDec (c + 1))
         ((winOf now + WINDOW_SIZE - now + 999) / 1000)) := by
  have hge : jsGE (some ((c : Nat) : Int)) MAX_REQUESTS = false := by
    simp [jsGE, MAX_REQUESTS]
    omega
  have hnum : jsNumToString (jsAdd1 (some ((c : Nat) : Int))) = natToDec (c + 1) := by
    have : ((c : Nat) : Int) + 1 = ((c + 1 : Nat) : Int) := by push_cast; ring
    simp only [jsAdd1, jsNumToString, this, intToDec_coe]
  simp only [storedCount] at hc
  simp only [checkRateLimit, kvHonest_get, kvHonest_put, hc, hge]
  simp only [Bool.false_eq_true, if_false, hnum]
  simp [jsSub, jsAdd1, MAX_REQUESTS]

theorem check_limited_gen {σ : Type} (kv : KV σ) (ip : List Char) (now : Nat)
    (st : σ) (cur : Option (List Char))
    (hget : kv.get st (rateKey ip (winOf now)) = Except.ok cur)
    (hge : jsGE (countOf cur) MAX_REQUESTS = true) :
    checkRateLimit kv ip now st =
      ({ limited := true, remaining := some 0,
         resetTime := winOf now + WINDOW_SIZE }, st) := by
  simp only [checkRateLimit, hget, hge, if_true]

theorem check_honest_limited {ip : List Char} {now : Nat} {st : KVStore} {c : Nat}
    (hc : storedCount st (rateKey ip (winOf now)) = some ((c : Nat) : Int))
    (hge : 100 ≤ c) :
    checkRateLimit kvHonest ip now st =
      ({ limited := true, remaining := some 0,
         resetTime := winOf now + WINDOW_SIZE }, st) := by
  refine check_limited_gen kvHonest ip now st (kvGetL st (rateKey ip (winOf now)))
    rfl ?_
  simp only [storedCount] at hc
  rw [hc]
  simp only [jsGE, MAX_REQUESTS, decide_eq_true_eq]
  exact_mod_cast hge

theorem runCalls_succ {σ : Type} (kv : KV σ) (ip : List Char) (now : Nat)
    (k : Nat) (st : σ) :
    runCalls kv ip now (k + 1) st =
      ((checkRateLimit kv ip now st).1 ::
         (runCalls kv ip now k (checkRateLimit kv ip now st).2).1,
       (runCalls kv ip now k (checkRateLimit kv ip now st).2).2) := rfl

theorem runCalls_append {σ : Type} (kv : KV σ) (ip : List Char) (now : Nat) :
    ∀ (m n : Nat) (st : σ),
      runCalls kv ip now (m + n) st =
        ((runCalls kv ip now m st).1 ++
           (runCalls kv ip now n (runCalls kv ip now m st).2).1,
         (runCalls kv ip now n (runCalls kv ip now m st).2).2) := by
  intro m
  induction m with
  | zero =>
    intro n st
    rw [Nat.zero_add]
    simp [runCalls]
  | succ m ih =>
    intro n st
    have h1 : m + 1 + n = (m + n) + 1 := by omega
    rw [h1, runCalls_succ, runCalls_succ, ih]
    simp

/-- The window invariant of the honest store: the countP bound caps the
passes at 100 minus the stored count, and while the budget lasts every
call passes and the count advances by one per call. -/
theorem runCalls_spec (ip : List Char) (now : Nat) :
    ∀ (k : Nat) (st : KVStore) (c : Nat),
      storedCount st (rateKey ip (winOf now)) = some ((c : Nat) : Int) →
      (runCalls kvHonest ip now k st).1.countP (fun r => !r.limited) ≤ 100 - c ∧
      (c + k ≤ 100 →
        (∀ r ∈ (runCalls kvHonest ip now k st).1, r.limited = false) ∧
        storedCount (runCalls kvHonest ip now k st).2 (rateKey ip (winOf now)) =
          some ((c + k : Nat) : Int)) := by
  intro k
  induction k with
  | zero =>
    intro st c hc
    refine ⟨by simp [runCalls], fun _ => ⟨by simp [runCalls], ?_⟩⟩
    simpa [runCalls] using hc
  | succ k ih =>
    intro st c hc
    by_cases hlt : c < 100
    · have hstep := check_honest_pass hc hlt
      have hc2 : storedCount (kvSet st (rateKey ip (winOf now)) (natToDec (c + 1))
          ((winOf now + WINDOW_SIZE - now + 999) / 1000)) (rateKey ip (winOf now)) =
          some ((c + 1 : Nat) : Int) :=
        storedCount_after_set _ _ (by omega) _
      have hih := ih _ (c + 1) hc2
      rw [runCalls_succ, hstep]
      refine ⟨?_, fun hk => ⟨?_, ?_⟩⟩
      · simp only [List.countP_cons]
        have h1 := hih.1
        norm_num
        omega
      · intro r hr
        rcases List.mem_cons.mp hr with h | h
        · rw [h]
        · exact (hih.2 (by omega)).1 r h
      · have h2 := (hih.2 (by omega)).2
        have h3 : c + (k + 1) = (c + 1) + k := by omega
        rw [h3]
        exact h2
    · have hge : 100 ≤ c := by omega
      have hstep := check_honest_limited hc hge
      have hih := ih st c hc
      rw [runCalls_succ, hstep]
      refine ⟨?_, fun hk => absurd hk (by omega)⟩
      simp only [List.countP_cons]
      have h1 := hih.1
      norm_num
      omega

/-- C8: within one fixed window the first 100 sequential calls for one
identity all pass, the 101st is limited with remaining 0, and however
many calls are made, at most 100 of them pass. -/
theorem rate_limit_boundary (ip : List Char) (now : Nat) :
    (∀ r ∈ (runCalls kvHonest ip now 100 []).1, r.limited = false) ∧
    (runCalls kvHonest ip now 101 []).1.getLast? =
      some { limited := true, remaining := some 0,
             resetTime := winOf now + WINDOW_SIZE } ∧
    ∀ k : Nat, (runCalls kvHonest ip now k []).1.countP (fun r => !r.limited) ≤ 100 := by
  have h0 : storedCount [] (rateKey ip (winOf now)) = some ((0 : Nat) : Int) := by
    simp [storedCount, kvGetL, countOf]
  refine ⟨((runCalls_spec ip now 100 [] 0 h0).2 (by omega)).1, ?_, ?_⟩
  · have hst := ((runCalls_spec ip now 100 [] 0 h0).2 (by omega)).2
    norm_num at hst
    have hlim := check_honest_limited hst (le_refl 100)
    have e3 : (runCalls kvHonest ip now 1 (runCalls kvHonest ip now 100 []).2).1 =
        [{ limited := true, remaining := some 0,
           resetTime := winOf now + WINDOW_SIZE }] := by
      rw [show (1 : Nat) = 0 + 1 from rfl, runCalls_succ, hlim]
      rfl
    rw [show (101 : Nat) = 100 + 1 from rfl,
      runCalls_append kvHonest ip now 100 1 []]
    dsimp only
    rw [e3, List.getLast?_concat]
  · intro k
    have h1 := (runCalls_spec ip now k [] 0 h0).1
    omega

/-- Closed instance of rate_limit_boundary: the first pass of the run is a
member of the first hundred results and is unlimited, the 101st result is
the limited one, and 150 calls yield at most 100 passes. -/
theorem rate_limit_boundary_witness :
    ({ limited := false, remaining := some 99, resetTime := 3600000 } :
        RateLimitResult) ∈ (runCalls kvHonest ['a'] 0 100 []).1 ∧
    ({ limited := false, remaining := some 99, resetTime := 3600000 } :
        RateLimitResult).limited = false ∧
    (runCalls kvHonest ['a'] 0 101 []).1.getLast? =
      some { limited := true, remaining := some 0, resetTime := 3600000 } ∧
    (runCalls kvHonest ['a'] 0 150 []).1.countP (fun r => !r.limited) ≤ 100 :=
  ⟨by decide, (rate_limit_boundary ['a'] 0).1 _ (by decide),
   (rate_limit_boundary ['a'] 0).2.1, (rate_limit_boundary ['a'] 0).2.2 150⟩

/-- C9: when the backing store is unreachable the limiter fails open: a
throwing read, or a throwing write after an under-limit read, yields
limited:false with remaining 99 and an unchanged store, instead of a
caller-visible error (checkRateLimit is total: the catch branch turns the
failure into an allow). -/
theorem rate_limit_fail_open :
    (∀ (ip : List Char) (now : Nat) (st : KVStore),
      checkRateLimit kvGetFails ip now st =
        ({ limited := false, remaining := some 99,
           resetTime := winOf now + WINDOW_SIZE }, st)) ∧
    (∀ (ip : List Char) (now : Nat) (st : KVStore),
      jsGE (storedCount st (rateKey ip (winOf now))) MAX_REQUESTS = false →
      checkRateLimit kvPutFails ip now st =
        ({ limited := false, remaining := some 99,
           resetTime := winOf now + WINDOW_SIZE }, st)) := by
  constructor
  · intro ip now st
    rfl
  · intro ip now st h
    simp only [storedCount] at h
    simp only [checkRateLimit, kvPutFails, h]
    rfl

/-- Closed instance of rate_limit_fail_open at a concrete ip, time and
store, for both failing operations. -/
theorem rate_limit_fail_open_witness :
    checkRateLimit kvGetFails ['a'] 5 [] =
      ({ limited := false, remaining := some 99, resetTime := 3600000 }, []) ∧
    jsGE (storedCount [] (rateKey ['a'] (winOf 5))) MAX_REQUESTS = false ∧
    checkRateLimit kvPutFails ['a'] 5 [] =
      ({ limited := false, remaining := some 99, resetTime := 3600000 }, []) :=
  ⟨rate_limit_fail_open.1 ['a'] 5 [], by decide,
   rate_limit_fail_open.2 ['a'] 5 [] (by decide)⟩

/-- C10: when the stored count for the identity and current window already
meets the limit, the call returns limited:true with remaining 0 and the
store is returned unchanged — no write happens, so the stored count and
its TTL are untouched. -/
theorem rate_limit_no_write_when_limited {σ : Type} (kv : KV σ) (ip : List Char)
    (now : Nat) (st : σ) (cur : Option (List Char))
    (hget : kv.get st (rateKey ip (winOf now)) = Except.ok cur)
    (hge : jsGE (countOf cur) MAX_REQUESTS = true) :
    checkRateLimit kv ip now st =
      ({ limited := true, remaining := some 0,
         resetTime := winOf now + WINDOW_SIZE }, st) :=
  check_limited_gen kv ip now st cur hget hge

theorem suffix_append_cases {X : List Char} :
    ∀ {A s' : List Char}, s' <:+ (A ++ X) →
      s' <:+ X ∨ ∃ A', A' <:+ A ∧ A' ≠ [] ∧ s' = A' ++ X := by
  intro A
  induction A with
  | nil =>
    intro s' h
    exact Or.inl (by simpa using h)
  | cons a A ih =>
    intro s' h
    rcases List.suffix_cons_iff.mp h with h1 | h1
    · exact Or.inr ⟨a :: A, List.suffix_refl _, by simp, by simpa using h1⟩
    · rcases ih h1 with h2 | ⟨A', hA, hne, rfl⟩
      · exact Or.inl h2
      · exact Or.inr ⟨A', hA.trans (List.suffix_cons a A), hne, rfl⟩

theorem alpha_not_quote : ∀ c ∈ valAlphabet, (!(isQuoteC c)) = true := by
  intro c hc
  fin_cases hc <;> rfl

theorem tmScript_alpha {c : Char} (hc : c ∈ valAlphabet) (X : List Char) :
    tmScript (c :: X) = none := by
  fin_cases hc <;> rfl

theorem tmTagOpen_alpha (alts : List (List Char)) {c : Char} (hc : c ∈ valAlphabet)
    (X : List Char) : tmTagOpen alts (c :: X) = none := by
  fin_cases hc <;> rfl

theorem tmTagClose_alpha (alts : List (List Char)) {c : Char} (hc : c ∈ valAlphabet)
    (X : List Char) : tmTagClose alts (c :: X) = none := by
  fin_cases hc <;> rfl

theorem tmOnAny_alpha {c : Char} (hc : c ∈ valAlphabet) (X : List Char) :
    tmOnAny (c :: X) = none := by
  fin_cases hc <;> rfl

theorem tmScript_tailB : ∀ t ∈ tailBL.tails, tmScript t = none := by
  intro t ht
  fin_cases ht <;> rfl

theorem tmTagOpen_tailB (alts : List (List Char)) :
    ∀ t ∈ tailBL.tails, tmTagOpen alts t = none := by
  intro t ht
  fin_cases ht <;> rfl

theorem tmTagClose_tailB (alts : List (List Char)) :
    ∀ t ∈ tailBL.tails, tmTagClose alts t = none := by
  intro t ht
  fin_cases ht <;> rfl

theorem tmOnAny_tailB : ∀ t ∈ tailBL.tails, tmOnAny t = none := by
  intro t ht
  fin_cases ht <;> rfl

/-- A pass is the identity on a concrete head followed by a benign value
and the closing quote: no suffix matches. -/
theorem gsub_id_shape (tm : List Char → Option Nat) (A : List Char)
    (hA : ∀ A' ∈ A.tails, A' ≠ [] → ∀ X : List Char, tm (A' ++ X) = none)
    (halpha : ∀ c ∈ valAlphabet, ∀ X : List Char, tm (c :: X) = none)
    (hB : ∀ t ∈ tailBL.tails, tm t = none)
    (v : List Char) (hv : ∀ c ∈ v, c ∈ valAlphabet) :
    gsub tm (A ++ (v ++ tailBL)) = A ++ (v ++ tailBL) := by
  apply gsub_eq_self
  intro s' hs'
  rcases suffix_append_cases hs' with h | ⟨A', hA', hne, rfl⟩
  · rcases suffix_append_cases h with h2 | ⟨v', hv', hne2, rfl⟩
    · exact hB s' ((List.mem_tails _ _).mpr h2)
    · cases v' with
      | nil => exact absurd rfl hne2
      | cons c rest =>
        exact halpha c (hv c (hv'.subset (List.mem_cons_self c rest))) (rest ++ tailBL)
  · exact hA A' ((List.mem_tails _ _).mpr hA') hne (v ++ tailBL)

theorem run_value (v : List Char) (hv : ∀ c ∈ v, c ∈ valAlphabet) :
    runLen (fun c => !(isQuoteC c)) (v ++ tailBL) = v.length := by
  unfold runLen
  rw [takeWhile_exact (fun c hc => alpha_not_quote c (hv c hc))
    (fun c hc => by
      simp only [tailBL, List.head?_cons, Option.some.injEq] at hc
      subst hc
      rfl)]

theorem schemeGo_js (v : List Char) (hv : ∀ c ∈ v, c ∈ valAlphabet) :
    schemeGo strictSchemes
      ('j' :: 'a' :: 'v' :: 'a' :: 's' :: 'c' :: 'r' :: 'i' :: 'p' :: 't' :: ':' ::
        (v ++ tailBL)) = some (11 + v.length + 1) := by
  have hdl : dropLit ['j', 'a', 'v', 'a', 's', 'c', 'r', 'i', 'p', 't', ':']
      ('j' :: 'a' :: 'v' :: 'a' :: 's' :: 'c' :: 'r' :: 'i' :: 'p' :: 't' :: ':' ::
        (v ++ tailBL)) = some (v ++ tailBL) := rfl
  simp only [strictSchemes, schemeGo, hdl]
  rw [run_value v hv, List.drop_left]
  simp only [tailBL, show isQuoteC dqC = true from rfl, if_true,
    List.length_cons, List.length_nil]

theorem schemeGo_data (v : List Char) (hv : ∀ c ∈ v, c ∈ valAlphabet) :
    schemeGo strictSchemes
      ('d' :: 'a' :: 't' :: 'a' :: ':' :: (v ++ tailBL)) =
      some (5 + v.length + 1) := by
  have hf : dropLit ['j', 'a', 'v', 'a', 's', 'c', 'r', 'i', 'p', 't', ':']
      ('d' :: 'a' :: 't' :: 'a' :: ':' :: (v ++ tailBL)) = none := rfl
  have hdl : dropLit ['d', 'a', 't', 'a', ':']
      ('d' :: 'a' :: 't' :: 'a' :: ':' :: (v ++ tailBL)) = some (v ++ tailBL) := rfl
  simp only [strictSchemes, schemeGo, hf, hdl]
  rw [run_value v hv, List.drop_left]
  simp only [tailBL, show isQuoteC dqC = true from rfl, if_true,
    List.length_cons, List.length_nil]

theorem urlAttr_href_js (v : List Char) (hv : ∀ c ∈ v, c ∈ valAlphabet) :
    tmUrlAttr strictSchemes
      ('h' :: 'r' :: 'e' :: 'f' :: '=' :: dqC ::
        ('j' :: 'a' :: 'v' :: 'a' :: 's' :: 'c' :: 'r' :: 'i' :: 'p' :: 't' :: ':' ::
          (v ++ tailBL))) = some ((17 + v.length) + 1) := by
  have hd2 : dropLit ['h', 'r', 'e', 'f']
      ('h' :: 'r' :: 'e' :: 'f' :: '=' :: dqC ::
        ('j' :: 'a' :: 'v' :: 'a' :: 's' :: 'c' :: 'r' :: 'i' :: 'p' :: 't' :: ':' ::
          (v ++ tailBL))) =
      some ('=' :: dqC ::
        ('j' :: 'a' :: 'v' :: 'a' :: 's' :: 'c' :: 'r' :: 'i' :: 'p' :: 't' :: ':' ::
          (v ++ tailBL))) := rfl
  have hw0 : runLen isWsC ('=' :: dqC ::
      ('j' :: 'a' :: 'v' :: 'a' :: 's' :: 'c' :: 'r' :: 'i' :: 'p' :: 't' :: ':' ::
        (v ++ tailBL))) = 0 := rfl
  have hw1 : runLen isWsC (dqC ::
      ('j' :: 'a' :: 'v' :: 'a' :: 's' :: 'c' :: 'r' :: 'i' :: 'p' :: 't' :: ':' ::
        (v ++ tailBL))) = 0 := rfl
  simp only [tmUrlAttr, hrefSrcAlts, attrGo, hd2, urlAttrBody, hw0, hw1,
    List.drop_zero, show isQuoteC dqC = true from rfl, if_true, schemeGo_js v hv,
    List.length_cons, List.length_nil]
  congr 1
  omega

theorem urlAttr_href_data (v : List Char) (hv : ∀ c ∈ v, c ∈ valAlphabet) :
    tmUrlAttr strictSchemes
      ('h' :: 'r' :: 'e' :: 'f' :: '=' :: dqC ::
        ('d' :: 'a' :: 't' :: 'a' :: ':' :: (v ++ tailBL))) =
      some ((11 + v.length) + 1) := by
  have hd2 : dropLit ['h', 'r', 'e', 'f']
      ('h' :: 'r' :: 'e' :: 'f' :: '=' :: dqC ::
        ('d' :: 'a' :: 't' :: 'a' :: ':' :: (v ++ tailBL))) =
      some ('=' :: dqC :: ('d' :: 'a' :: 't' :: 'a' :: ':' :: (v ++ tailBL))) := rfl
  have hw0 : runLen isWsC ('=' :: dqC ::
      ('d' :: 'a' :: 't' :: 'a' :: ':' :: (v ++ tailBL))) = 0 := rfl
  have hw1 : runLen isWsC (dqC ::
      ('d' :: 'a' :: 't' :: 'a' :: ':' :: (v ++ tailBL))) = 0 := rfl
  simp only [tmUrlAttr, hrefSrcAlts, attrGo, hd2, urlAttrBody, hw0, hw1,
    List.drop_zero, show isQuoteC dqC = true from rfl, if_true, schemeGo_data v hv,
    List.length_cons, List.length_nil]
  congr 1
  omega

theorem urlAttr_src_js (v : List Char) (hv : ∀ c ∈ v, c ∈ valAlphabet) :
    tmUrlAttr strictSchemes
      ('s' :: 'r' :: 'c' :: '=' :: dqC ::
        ('j' :: 'a' :: 'v' :: 'a' :: 's' :: 'c' :: 'r' :: 'i' :: 'p' :: 't' :: ':' ::
          (v ++ tailBL))) = some ((16 + v.length) + 1) := by
  have hf : dropLit ['h', 'r', 'e', 'f']
      ('s' :: 'r' :: 'c' :: '=' :: dqC ::
        ('j' :: 'a' :: 'v' :: 'a' :: 's' :: 'c' :: 'r' :: 'i' :: 'p' :: 't' :: ':' ::
          (v ++ tailBL))) = none := rfl
  have hd2 : dropLit ['s', 'r', 'c']
      ('s' :: 'r' :: 'c' :: '=' :: dqC ::
        ('j' :: 'a' :: 'v' :: 'a' :: 's' :: 'c' :: 'r' :: 'i' :: 'p' :: 't' :: ':' ::
          (v ++ tailBL))) =
      some ('=' :: dqC ::
        ('j' :: 'a' :: 'v' :: 'a' :: 's' :: 'c' :: 'r' :: 'i' :: 'p' :: 't' :: ':' ::
          (v ++ tailBL))) := rfl
  have hw0 : runLen isWsC ('=' :: dqC ::
      ('j' :: 'a' :: 'v' :: 'a' :: 's' :: 'c' :: 'r' :: 'i' :: 'p' :: 't' :: ':' ::
        (v ++ tailBL))) = 0 := rfl
  have hw1 : runLen isWsC (dqC ::
      ('j' :: 'a' :: 'v' :: 'a' :: 's' :: 'c' :: 'r' :: 'i' :: 'p' :: 't' :: ':' ::
        (v ++ tailBL))) = 0 := rfl
  simp only [tmUrlAttr, hrefSrcAlts, attrGo, hf, hd2, urlAttrBody, hw0, hw1,
    List.drop_zero, show isQuoteC dqC = true from rfl, if_true, schemeGo_js v hv,
    List.length_cons, List.length_nil]
  congr 1
  omega

theorem urlAttr_src_data (v : List Char) (hv : ∀ c ∈ v, c ∈ valAlphabet) :
    tmUrlAttr strictSchemes
      ('s' :: 'r' :: 'c' :: '=' :: dqC ::
        ('d' :: 'a' :: 't' :: 'a' :: ':' :: (v ++ tailBL))) =
      some ((10 + v.length) + 1) := by
  have hf : dropLit ['h', 'r', 'e', 'f']
      ('s' :: 'r' :: 'c' :: '=' :: dqC ::
        ('d' :: 'a' :: 't' :: 'a' :: ':' :: (v ++ tailBL))) = none := rfl
  have hd2 : dropLit ['s', 'r', 'c']
      ('s' :: 'r' :: 'c' :: '=' :: dqC ::
        ('d' :: 'a' :: 't' :: 'a' :: ':' :: (v ++ tailBL))) =
      some ('=' :: dqC :: ('d' :: 'a' :: 't' :: 'a' :: ':' :: (v ++ tailBL))) := rfl
  have hw0 : runLen isWsC ('=' :: dqC ::
      ('d' :: 'a' :: 't' :: 'a' :: ':' :: (v ++ tailBL))) = 0 := rfl
  have hw1 : runLen isWsC (dqC ::
      ('d' :: 'a' :: 't' :: 'a' :: ':' :: (v ++ tailBL))) = 0 := rfl
  simp only [tmUrlAttr, hrefSrcAlts, attrGo, hf, hd2, urlAttrBody, hw0, hw1,
    List.drop_zero, show isQuoteC dqC = true from rfl, if_true, schemeGo_data v hv,
    List.length_cons, List.length_nil]
  congr 1
  omega

/-- Closed instance of rate_limit_no_write_when_limited on the honest
store holding the count 100. -/
theorem rate_limit_no_write_when_limited_witness :
    kvHonest.get [⟨String.data "rate_limit:a:0", String.data "100", 3600⟩]
        (rateKey ['a'] (winOf 5)) =
      Except.ok (some (String.data "100")) ∧
    jsGE (countOf (some (String.data "100"))) MAX_REQUESTS = true ∧
    checkRateLimit kvHonest ['a'] 5
        [⟨String.data "rate_limit:a:0", String.data "100", 3600⟩] =
      ({ limited := true, remaining := some 0, resetTime := 3600000 },
       [⟨String.data "rate_limit:a:0", String.data "100", 3600⟩]) :=
  ⟨rfl, by decide,
   rate_limit_no_write_when_limited kvHonest ['a'] 5
     [⟨String.data "rate_limit:a:0", String.data "100", 3600⟩]
     (some (String.data "100")) rfl (by decide)⟩

/-- On every nonempty suffix of the concrete head, every earlier pass of
the strict chain fails to match, whatever follows. -/
theorem hA_href_js : ∀ A' ∈ hrefJsA.tails, A' ≠ [] → ∀ X : List Char,
    tmScript (A' ++ X) = none ∧ tmTagOpen objAlts (A' ++ X) = none ∧
    tmTagClose objAlts (A' ++ X) = none ∧ tmTagOpen formAlts (A' ++ X) = none ∧
    tmTagClose formAlts (A' ++ X) = none ∧ tmTagOpen frameAlts (A' ++ X) = none ∧
    tmTagClose frameAlts (A' ++ X) = none ∧ tmOnAny (A' ++ X) = none := by
  intro A' hA' hne X
  fin_cases hA' <;>
    first
    | exact absurd rfl hne
    | exact ⟨rfl, rfl, rfl, rfl, rfl, rfl, rfl, rfl⟩

theorem hA_href_data : ∀ A' ∈ hrefDataA.tails, A' ≠ [] → ∀ X : List Char,
    tmScript (A' ++ X) = none ∧ tmTagOpen objAlts (A' ++ X) = none ∧
    tmTagClose objAlts (A' ++ X) = none ∧ tmTagOpen formAlts (A' ++ X) = none ∧
    tmTagClose formAlts (A' ++ X) = none ∧ tmTagOpen frameAlts (A' ++ X) = none ∧
    tmTagClose frameAlts (A' ++ X) = none ∧ tmOnAny (A' ++ X) = none := by
  intro A' hA' hne X
  fin_cases hA' <;>
    first
    | exact absurd rfl hne
    | exact ⟨rfl, rfl, rfl, rfl, rfl, rfl, rfl, rfl⟩

theorem hA_src_js : ∀ A' ∈ srcJsA.tails, A' ≠ [] → ∀ X : List Char,
    tmScript (A' ++ X) = none ∧ tmTagOpen objAlts (A' ++ X) = none ∧
    tmTagClose objAlts (A' ++ X) = none ∧ tmTagOpen formAlts (A' ++ X) = none ∧
    tmTagClose formAlts (A' ++ X) = none ∧ tmTagOpen frameAlts (A' ++ X) = none ∧
    tmTagClose frameAlts (A' ++ X) = none ∧ tmOnAny (A' ++ X) = none := by
  intro A' hA' hne X
  fin_cases hA' <;>
    first
    | exact absurd rfl hne
    | exact ⟨rfl, rfl, rfl, rfl, rfl, rfl, rfl, rfl⟩

theorem hA_src_data : ∀ A' ∈ srcDataA.tails, A' ≠ [] → ∀ X : List Char,
    tmScript (A' ++ X) = none ∧ tmTagOpen objAlts (A' ++ X) = none ∧
    tmTagClose objAlts (A' ++ X) = none ∧ tmTagOpen formAlts (A' ++ X) = none ∧
    tmTagClose formAlts (A' ++ X) = none ∧ tmTagOpen frameAlts (A' ++ X) = none ∧
    tmTagClose frameAlts (A' ++ X) = none ∧ tmOnAny (A' ++ X) = none := by
  intro A' hA' hne X
  fin_cases hA' <;>
    first
    | exact absurd rfl hne
    | exact ⟨rfl, rfl, rfl, rfl, rfl, rfl, rfl, rfl⟩

theorem strip_href_js (v : List Char) (hv : ∀ c ∈ v, c ∈ valAlphabet) :
    gsub (tmUrlAttr strictSchemes) (hrefJsA ++ (v ++ tailBL)) =
      ['<', 'a', ' ', '>'] := by
  show gsub (tmUrlAttr strictSchemes)
    ('<' :: 'a' :: ' ' :: 'h' :: 'r' :: 'e' :: 'f' :: '=' :: dqC ::
      ('j' :: 'a' :: 'v' :: 'a' :: 's' :: 'c' :: 'r' :: 'i' :: 'p' :: 't' :: ':' ::
        (v ++ tailBL))) = ['<', 'a', ' ', '>']
  have n0 : tmUrlAttr strictSchemes
      ('<' :: 'a' :: ' ' :: 'h' :: 'r' :: 'e' :: 'f' :: '=' :: dqC ::
        ('j' :: 'a' :: 'v' :: 'a' :: 's' :: 'c' :: 'r' :: 'i' :: 'p' :: 't' :: ':' ::
          (v ++ tailBL))) = none := rfl
  have n1 : tmUrlAttr strictSchemes
      ('a' :: ' ' :: 'h' :: 'r' :: 'e' :: 'f' :: '=' :: dqC ::
        ('j' :: 'a' :: 'v' :: 'a' :: 's' :: 'c' :: 'r' :: 'i' :: 'p' :: 't' :: ':' ::
          (v ++ tailBL))) = none := rfl
  have n2 : tmUrlAttr strictSchemes
      (' ' :: 'h' :: 'r' :: 'e' :: 'f' :: '=' :: dqC ::
        ('j' :: 'a' :: 'v' :: 'a' :: 's' :: 'c' :: 'r' :: 'i' :: 'p' :: 't' :: ':' ::
          (v ++ tailBL))) = none := rfl
  have hdrop : List.drop (17 + v.length)
      ('r' :: 'e' :: 'f' :: '=' :: dqC ::
        ('j' :: 'a' :: 'v' :: 'a' :: 's' :: 'c' :: 'r' :: 'i' :: 'p' :: 't' :: ':' ::
          (v ++ tailBL))) = ['>'] := by
    show List.drop (17 + v.length)
      (('r' :: 'e' :: 'f' :: '=' :: dqC ::
        'j' :: 'a' :: 'v' :: 'a' :: 's' :: 'c' :: 'r' :: 'i' :: 'p' :: 't' :: ':' :: []) ++
        (v ++ tailBL)) = ['>']
    rw [show 17 + v.length =
      ('r' :: 'e' :: 'f' :: '=' :: dqC ::
        'j' :: 'a' :: 'v' :: 'a' :: 's' :: 'c' :: 'r' :: 'i' :: 'p' :: 't' :: ':' ::
        ([] : List Char)).length + (v.length + 1) from by
        simp only [List.length_cons, List.length_nil]; omega]
    rw [List.drop_append, List.drop_append]
    rfl
  rw [gsub_cons_nomatch n0, gsub_cons_nomatch n1, gsub_cons_nomatch n2,
    gsub_cons_match (urlAttr_href_js v hv), hdrop]
  rfl

theorem strip_href_data (v : List Char) (hv : ∀ c ∈ v, c ∈ valAlphabet) :
    gsub (tmUrlAttr strictSchemes) (hrefDataA ++ (v ++ tailBL)) =
      ['<', 'a', ' ', '>'] := by
  show gsub (tmUrlAttr strictSchemes)
    ('<' :: 'a' :: ' ' :: 'h' :: 'r' :: 'e' :: 'f' :: '=' :: dqC ::
      ('d' :: 'a' :: 't' :: 'a' :: ':' :: (v ++ tailBL))) = ['<', 'a', ' ', '>']
  have n0 : tmUrlAttr strictSchemes
      ('<' :: 'a' :: ' ' :: 'h' :: 'r' :: 'e' :: 'f' :: '=' :: dqC ::
        ('d' :: 'a' :: 't' :: 'a' :: ':' :: (v ++ tailBL))) = none := rfl
  have n1 : tmUrlAttr strictSchemes
      ('a' :: ' ' :: 'h' :: 'r' :: 'e' :: 'f' :: '=' :: dqC ::
        ('d' :: 'a' :: 't' :: 'a' :: ':' :: (v ++ tailBL))) = none := rfl
  have n2 : tmUrlAttr strictSchemes
      (' ' :: 'h' :: 'r' :: 'e' :: 'f' :: '=' :: dqC ::
        ('d' :: 'a' :: 't' :: 'a' :: ':' :: (v ++ tailBL))) = none := rfl
  have hdrop : List.drop (11 + v.length)
      ('r' :: 'e' :: 'f' :: '=' :: dqC ::
        ('d' :: 'a' :: 't' :: 'a' :: ':' :: (v ++ tailBL))) = ['>'] := by
    show List.drop (11 + v.length)
      (('r' :: 'e' :: 'f' :: '=' :: dqC :: 'd' :: 'a' :: 't' :: 'a' :: ':' :: []) ++
        (v ++ tailBL)) = ['>']
    rw [show 11 + v.length =
      ('r' :: 'e' :: 'f' :: '=' :: dqC :: 'd' :: 'a' :: 't' :: 'a' :: ':' ::
        ([] : List Char)).length + (v.length + 1) from by
        simp only [List.length_cons, List.length_nil]; omega]
    rw [List.drop_append, List.drop_append]
    rfl
  rw [gsub_cons_nomatch n0, gsub_cons_nomatch n1, gsub_cons_nomatch n2,
    gsub_cons_match (urlAttr_href_data v hv), hdrop]
  rfl

theorem strip_src_js (v : List Char) (hv : ∀ c ∈ v, c ∈ valAlphabet) :
    gsub (tmUrlAttr strictSchemes) (srcJsA ++ (v ++ tailBL)) =
      ['<', 'a', ' ', '>'] := by
  show gsub (tmUrlAttr strictSchemes)
    ('<' :: 'a' :: ' ' :: 's' :: 'r' :: 'c' :: '=' :: dqC ::
      ('j' :: 'a' :: 'v' :: 'a' :: 's' :: 'c' :: 'r' :: 'i' :: 'p' :: 't' :: ':' ::
        (v ++ tailBL))) = ['<', 'a', ' ', '>']
  have n0 : tmUrlAttr strictSchemes
      ('<' :: 'a' :: ' ' :: 's' :: 'r' :: 'c' :: '=' :: dqC ::
        ('j' :: 'a' :: 'v' :: 'a' :: 's' :: 'c' :: 'r' :: 'i' :: 'p' :: 't' :: ':' ::
          (v ++ tailBL))) = none := rfl
  have n1 : tmUrlAttr strictSchemes
      ('a' :: ' ' :: 's' :: 'r' :: 'c' :: '=' :: dqC ::
        ('j' :: 'a' :: 'v' :: 'a' :: 's' :: 'c' :: 'r' :: 'i' :: 'p' :: 't' :: ':' ::
          (v ++ tailBL))) = none := rfl
  have n2 : tmUrlAttr strictSchemes
      (' ' :: 's' :: 'r' :: 'c' :: '=' :: dqC ::
        ('j' :: 'a' :: 'v' :: 'a' :: 's' :: 'c' :: 'r' :: 'i' :: 'p' :: 't' :: ':' ::
          (v ++ tailBL))) = none := rfl
  have hdrop : List.drop (16 + v.length)
      ('r' :: 'c' :: '=' :: dqC ::
        ('j' :: 'a' :: 'v' :: 'a' :: 's' :: 'c' :: 'r' :: 'i' :: 'p' :: 't' :: ':' ::
          (v ++ tailBL))) = ['>'] := by
    show List.drop (16 + v.length)
      (('r' :: 'c' :: '=' :: dqC ::
        'j' :: 'a' :: 'v' :: 'a' :: 's' :: 'c' :: 'r' :: 'i' :: 'p' :: 't' :: ':' :: []) ++
        (v ++ tailBL)) = ['>']
    rw [show 16 + v.length =
      ('r' :: 'c' :: '=' :: dqC ::
        'j' :: 'a' :: 'v' :: 'a' :: 's' :: 'c' :: 'r' :: 'i' :: 'p' :: 't' :: ':' ::
        ([] : List Char)).length + (v.length + 1) from by
        simp only [List.length_cons, List.length_nil]; omega]
    rw [List.drop_append, List.drop_append]
    rfl
  rw [gsub_cons_nomatch n0, gsub_cons_nomatch n1, gsub_cons_nomatch n2,
    gsub_cons_match (urlAttr_src_js v hv), hdrop]
  rfl

theorem strip_src_data (v : List Char) (hv : ∀ c ∈ v, c ∈ valAlphabet) :
    gsub (tmUrlAttr strictSchemes) (srcDataA ++ (v ++ tailBL)) =
      ['<', 'a', ' ', '>'] := by
  show gsub (tmUrlAttr strictSchemes)
    ('<' :: 'a' :: ' ' :: 's' :: 'r' :: 'c' :: '=' :: dqC ::
      ('d' :: 'a' :: 't' :: 'a' :: ':' :: (v ++ tailBL))) = ['<', 'a', ' ', '>']
  have n0 : tmUrlAttr strictSchemes
      ('<' :: 'a' :: ' ' :: 's' :: 'r' :: 'c' :: '=' :: dqC ::
        ('d' :: 'a' :: 't' :: 'a' :: ':' :: (v ++ tailBL))) = none := rfl
  have n1 : tmUrlAttr strictSchemes
      ('a' :: ' ' :: 's' :: 'r' :: 'c' :: '=' :: dqC ::
        ('d' :: 'a' :: 't' :: 'a' :: ':' :: (v ++ tailBL))) = none := rfl
  have n2 : tmUrlAttr strictSchemes
      (' ' :: 's' :: 'r' :: 'c' :: '=' :: dqC ::
        ('d' :: 'a' :: 't' :: 'a' :: ':' :: (v ++ tailBL))) = none := rfl
  have hdrop : List.drop (10 + v.length)
      ('r' :: 'c' :: '=' :: dqC ::
        ('d' :: 'a' :: 't' :: 'a' :: ':' :: (v ++ tailBL))) = ['>'] := by
    show List.drop (10 + v.length)
      (('r' :: 'c' :: '=' :: dqC :: 'd' :: 'a' :: 't' :: 'a' :: ':' :: []) ++
        (v ++ tailBL)) = ['>']
    rw [show 10 + v.length =
      ('r' :: 'c' :: '=' :: dqC :: 'd' :: 'a' :: 't' :: 'a' :: ':' ::
        ([] : List Char)).length + (v.length + 1) from by
        simp only [List.length_cons, List.length_nil]; omega]
    rw [List.drop_append, List.drop_append]
    rfl
  rw [gsub_cons_nomatch n0, gsub_cons_nomatch n1, gsub_cons_nomatch n2,
    gsub_cons_match (urlAttr_src_data v hv), hdrop]
  rfl

theorem sanitizeStrip_href_js (v : List Char) (hv : ∀ c ∈ v, c ∈ valAlphabet) :
    sanitizeContentL (hrefJsA ++ (v ++ tailBL)) = ['<', 'a', ' ', '>'] := by
  have p1 := gsub_id_shape tmScript hrefJsA
    (fun A' h hne X => (hA_href_js A' h hne X).1)
    (fun c hc X => tmScript_alpha hc X) tmScript_tailB v hv
  have p2 := gsub_id_shape (tmTagOpen objAlts) hrefJsA
    (fun A' h hne X => (hA_href_js A' h hne X).2.1)
    (fun c hc X => tmTagOpen_alpha objAlts hc X) (tmTagOpen_tailB objAlts) v hv
  have p3 := gsub_id_shape (tmTagClose objAlts) hrefJsA
    (fun A' h hne X => (hA_href_js A' h hne X).2.2.1)
    (fun c hc X => tmTagClose_alpha objAlts hc X) (tmTagClose_tailB objAlts) v hv
  have p4 := gsub_id_shape (tmTagOpen formAlts) hrefJsA
    (fun A' h hne X => (hA_href_js A' h hne X).2.2.2.1)
    (fun c hc X => tmTagOpen_alpha formAlts hc X) (tmTagOpen_tailB formAlts) v hv
  have p5 := gsub_id_shape (tmTagClose formAlts) hrefJsA
    (fun A' h hne X => (hA_href_js A' h hne X).2.2.2.2.1)
    (fun c hc X => tmTagClose_alpha formAlts hc X) (tmTagClose_tailB formAlts) v hv
  have p6 := gsub_id_shape (tmTagOpen frameAlts) hrefJsA
    (fun A' h hne X => (hA_href_js A' h hne X).2.2.2.2.2.1)
    (fun c hc X => tmTagOpen_alpha frameAlts hc X) (tmTagOpen_tailB frameAlts) v hv
  have p7 := gsub_id_shape (tmTagClose frameAlts) hrefJsA
    (fun A' h hne X => (hA_href_js A' h hne X).2.2.2.2.2.2.1)
    (fun c hc X => tmTagClose_alpha frameAlts hc X) (tmTagClose_tailB frameAlts) v hv
  have p8 := gsub_id_shape tmOnAny hrefJsA
    (fun A' h hne X => (hA_href_js A' h hne X).2.2.2.2.2.2.2)
    (fun c hc X => tmOnAny_alpha hc X) tmOnAny_tailB v hv
  have hne2 : (hrefJsA ++ (v ++ tailBL)).isEmpty = false := by simp [hrefJsA]
  unfold sanitizeContentL
  rw [if_neg (by simp [hne2]), p1, p2, p3, p4, p5, p6, p7, p8, strip_href_js v hv]
  rfl

theorem sanitizeStrip_href_data (v : List Char) (hv : ∀ c ∈ v, c ∈ valAlphabet) :
    sanitizeContentL (hrefDataA ++ (v ++ tailBL)) = ['<', 'a', ' ', '>'] := by
  have p1 := gsub_id_shape tmScript hrefDataA
    (fun A' h hne X => (hA_href_data A' h hne X).1)
    (fun c hc X => tmScript_alpha hc X) tmScript_tailB v hv
  have p2 := gsub_id_shape (tmTagOpen objAlts) hrefDataA
    (fun A' h hne X => (hA_href_data A' h hne X).2.1)
    (fun c hc X => tmTagOpen_alpha objAlts hc X) (tmTagOpen_tailB objAlts) v hv
  have p3 := gsub_id_shape (tmTagClose objAlts) hrefDataA
    (fun A' h hne X => (hA_href_data A' h hne X).2.2.1)
    (fun c hc X => tmTagClose_alpha objAlts hc X) (tmTagClose_tailB objAlts) v hv
  have p4 := gsub_id_shape (tmTagOpen formAlts) hrefDataA
    (fun A' h hne X => (hA_href_data A' h hne X).2.2.2.1)
    (fun c hc X => tmTagOpen_alpha formAlts hc X) (tmTagOpen_tailB formAlts) v hv
  have p5 := gsub_id_shape (tmTagClose formAlts) hrefDataA
    (fun A' h hne X => (hA_href_data A' h hne X).2.2.2.2.1)
    (fun c hc X => tmTagClose_alpha formAlts hc X) (tmTagClose_tailB formAlts) v hv
  have p6 := gsub_id_shape (tmTagOpen frameAlts) hrefDataA
    (fun A' h hne X => (hA_href_data A' h hne X).2.2.2.2.2.1)
    (fun c hc X => tmTagOpen_alpha frameAlts hc X) (tmTagOpen_tailB frameAlts) v hv
  have p7 := gsub_id_shape (tmTagClose frameAlts) hrefDataA
    (fun A' h hne X => (hA_href_data A' h hne X).2.2.2.2.2.2.1)
    (fun c hc X => tmTagClose_alpha frameAlts hc X) (tmTagClose_tailB frameAlts) v hv
  have p8 := gsub_id_shape tmOnAny hrefDataA
    (fun A' h hne X => (hA_href_data A' h hne X).2.2.2.2.2.2.2)
    (fun c hc X => tmOnAny_alpha hc X) tmOnAny_tailB v hv
  have hne2 : (hrefDataA ++ (v ++ tailBL)).isEmpty = false := by simp [hrefDataA]
  unfold sanitizeContentL
  rw [if_neg (by simp [hne2]), p1, p2, p3, p4, p5, p6, p7, p8, strip_href_data v hv]
  rfl

theorem sanitizeStrip_src_js (v : List Char) (hv : ∀ c ∈ v, c ∈ valAlphabet) :
    sanitizeContentL (srcJsA ++ (v ++ tailBL)) = ['<', 'a', ' ', '>'] := by
  have p1 := gsub_id_shape tmScript srcJsA
    (fun A' h hne X => (hA_src_js A' h hne X).1)
    (fun c hc X => tmScript_alpha hc X) tmScript_tailB v hv
  have p2 := gsub_id_shape (tmTagOpen objAlts) srcJsA
    (fun A' h hne X => (hA_src_js A' h hne X).2.1)
    (fun c hc X => tmTagOpen_alpha objAlts hc X) (tmTagOpen_tailB objAlts) v hv
  have p3 := gsub_id_shape (tmTagClose objAlts) srcJsA
    (fun A' h hne X => (hA_src_js A' h hne X).2.2.1)
    (fun c hc X => tmTagClose_alpha objAlts hc X) (tmTagClose_tailB objAlts) v hv
  have p4 := gsub_id_shape (tmTagOpen formAlts) srcJsA
    (fun A' h hne X => (hA_src_js A' h hne X).2.2.2.1)
    (fun c hc X => tmTagOpen_alpha formAlts hc X) (tmTagOpen_tailB formAlts) v hv
  have p5 := gsub_id_shape (tmTagClose formAlts) srcJsA
    (fun A' h hne X => (hA_src_js A' h hne X).2.2.2.2.1)
    (fun c hc X => tmTagClose_alpha formAlts hc X) (tmTagClose_tailB formAlts) v hv
  have p6 := gsub_id_shape (tmTagOpen frameAlts) srcJsA
    (fun A' h hne X => (hA_src_js A' h hne X).2.2.2.2.2.1)
    (fun c hc X => tmTagOpen_alpha frameAlts hc X) (tmTagOpen_tailB frameAlts) v hv
  have p7 := gsub_id_shape (tmTagClose frameAlts) srcJsA
    (fun A' h hne X => (hA_src_js A' h hne X).2.2.2.2.2.2.1)
    (fun c hc X => tmTagClose_alpha frameAlts hc X) (tmTagClose_tailB frameAlts) v hv
  have p8 := gsub_id_shape tmOnAny srcJsA
    (fun A' h hne X => (hA_src_js A' h hne X).2.2.2.2.2.2.2)
    (fun c hc X => tmOnAny_alpha hc X) tmOnAny_tailB v hv
  have hne2 : (srcJsA ++ (v ++ tailBL)).isEmpty = false := by simp [srcJsA]
  unfold sanitizeContentL
  rw [if_neg (by simp [hne2]), p1, p2, p3, p4, p5, p6, p7, p8, strip_src_js v hv]
  rfl

theorem sanitizeStrip_src_data (v : List Char) (hv : ∀ c ∈ v, c ∈ valAlphabet) :
    sanitizeContentL (srcDataA ++ (v ++ tailBL)) = ['<', 'a', ' ', '>'] := by
  have p1 := gsub_id_shape tmScript srcDataA
    (fun A' h hne X => (hA_src_data A' h hne X).1)
    (fun c hc X => tmScript_alpha hc X) tmScript_tailB v hv
  have p2 := gsub_id_shape (tmTagOpen objAlts) srcDataA
    (fun A' h hne X => (hA_src_data A' h hne X).2.1)
    (fun c hc X => tmTagOpen_alpha objAlts hc X) (tmTagOpen_tailB objAlts) v hv
  have p3 := gsub_id_shape (tmTagClose objAlts) srcDataA
    (fun A' h hne X => (hA_src_data A' h hne X).2.2.1)
    (fun c hc X => tmTagClose_alpha objAlts hc X) (tmTagClose_tailB objAlts) v hv
  have p4 := gsub_id_shape (tmTagOpen formAlts) srcDataA
    (fun A' h hne X => (hA_src_data A' h hne X).2.2.2.1)
    (fun c hc X => tmTagOpen_alpha formAlts hc X) (tmTagOpen_tailB formAlts) v hv
  have p5 := gsub_id_shape (tmTagClose formAlts) srcDataA
    (fun A' h hne X => (hA_src_data A' h hne X).2.2.2.2.1)
    (fun c hc X => tmTagClose_alpha formAlts hc X) (tmTagClose_tailB formAlts) v hv
  have p6 := gsub_id_shape (tmTagOpen frameAlts) srcDataA
    (fun A' h hne X => (hA_src_data A' h hne X).2.2.2.2.2.1)
    (fun c hc X => tmTagOpen_alpha frameAlts hc X) (tmTagOpen_tailB frameAlts) v hv
  have p7 := gsub_id_shape (tmTagClose frameAlts) srcDataA
    (fun A' h hne X => (hA_src_data A' h hne X).2.2.2.2.2.2.1)
    (fun c hc X => tmTagClose_alpha frameAlts hc X) (tmTagClose_tailB frameAlts) v hv
  have p8 := gsub_id_shape tmOnAny srcDataA
    (fun A' h hne X => (hA_src_data A' h hne X).2.2.2.2.2.2.2)
    (fun c hc X => tmOnAny_alpha hc X) tmOnAny_tailB v hv
  have hne2 : (srcDataA ++ (v ++ tailBL)).isEmpty = false := by simp [srcDataA]
  unfold sanitizeContentL
  rw [if_neg (by simp [hne2]), p1, p2, p3, p4, p5, p6, p7, p8, strip_src_data v hv]
  rfl

/-- C7 amended: in strict mode the sanitizer strips javascript:- and
data:-scheme values from quoted href and src attributes wholesale — for
either attribute name, either of the two schemes the regex lists, and any
value over the benign URL alphabet, the whole attribute is deleted from
the anchor tag. The claim additionally names vbscript:, which the regex
does not list and which survives (see the counterexample). -/
theorem sanitize_scheme_attr_strip (a sch v : List Char)
    (ha : a ∈ hrefSrcAlts) (hsch : sch ∈ strictSchemes)
    (hv : ∀ c ∈ v, c ∈ valAlphabet) :
    sanitizeContentL
      ('<' :: 'a' :: ' ' :: (a ++ '=' :: dqC :: (sch ++ (v ++ tailBL)))) =
      ['<', 'a', ' ', '>'] := by
  fin_cases ha <;> fin_cases hsch
  · exact sanitizeStrip_href_js v hv
  · exact sanitizeStrip_href_data v hv
  · exact sanitizeStrip_src_js v hv
  · exact sanitizeStrip_src_data v hv

/-- Closed instance of sanitize_scheme_attr_strip at href/javascript: with
the payload alert(1). -/
theorem sanitize_scheme_attr_strip_witness :
    (['h', 'r', 'e', 'f'] : List Char) ∈ hrefSrcAlts ∧
    (['j', 'a', 'v', 'a', 's', 'c', 'r', 'i', 'p', 't', ':'] : List Char) ∈
      strictSchemes ∧
    (∀ c ∈ String.data "alert(1)", c ∈ valAlphabet) ∧
    sanitizeContentL
      ('<' :: 'a' :: ' ' :: (['h', 'r', 'e', 'f'] ++ '=' :: dqC ::
        (['j', 'a', 'v', 'a', 's', 'c', 'r', 'i', 'p', 't', ':'] ++
          (String.data "alert(1)" ++ tailBL)))) = ['<', 'a', ' ', '>'] :=
  ⟨by decide, by decide, by decide,
   sanitize_scheme_attr_strip _ _ _ (by decide) (by decide) (by decide)⟩

end Brrrand
